import Mathlib

/-!
# Mock-Heap (`mem.c`): a shallow embedding of the allocator

The C file keeps a singly linked list of `block_header` records inside one
memory region.  The embedding keeps the C state explicit:

* an address is an integer byte address, `0` is `NULL`;
* memory is a map from the byte address of a header to the two fields stored
  there.  Headers at different addresses are separate cells, which is exact as
  long as the headers in use do not overlap;
* `int` values are integers; arithmetic is exact (values are expected to stay
  inside the 32-bit range), and the one comparison the C compiler performs in
  `size_t` is written with an explicit reduction modulo `2 ^ bits`;
* the loops that follow `next` pointers take a fuel argument bounding the number
  of iterations and return `none` when it is exhausted.

`sizeof(block_header)` and the width of `size_t` are fixed by the compiler, not
by the source, and are parameters (`Target`).
-/

namespace MockHeap

/-- The record `struct block_hd`: the address of the next header and the
`size_status` word. -/
structure block_header where
  next : Int
  size_status : Int
deriving DecidableEq, Repr

/-- What the build target decides: `hdr` is `sizeof(block_header)` in bytes,
`bits` is the width of `size_t`, `pagesize` is the result of `getpagesize()`. -/
structure Target where
  hdr : Int
  bits : Nat
  pagesize : Int
deriving DecidableEq, Repr

/-- A 32-bit build: 4-byte pointer and 4-byte `int`. -/
def ilp32 : Target := ⟨8, 32, 4096⟩

/-- A 64-bit build: 8-byte pointer, 4-byte `int`, 4 bytes of padding. -/
def lp64 : Target := ⟨16, 64, 4096⟩

/-- Header-granular memory. -/
abbrev Memory := Int → block_header

/-- The globals of `mem.c`: the static flag of `Mem_Init`, `list_head`, and the
memory the headers live in. -/
structure Heap where
  allocated_once : Int
  list_head : Int
  mem : Memory

/-- Memory as `mmap` of `/dev/zero` hands it out: every word is zero. -/
def zeroMemory : Memory := fun _ => ⟨0, 0⟩

/-- The state of a process before its first call: `list_head = NULL`,
`allocated_once = 0`. -/
def Heap.boot : Heap := ⟨0, 0, zeroMemory⟩

/-- The assignment `p->size_status = v`. -/
def setSize (m : Memory) (p : Int) (v : Int) : Memory :=
  Function.update m p { m p with size_status := v }

/-- The assignment `p->next = q`. -/
def setNext (m : Memory) (p : Int) (q : Int) : Memory :=
  Function.update m p { m p with next := q }

/-- Conversion of an `int` to `size_t`. -/
def toSizeT (t : Target) (x : Int) : Int := x % 2 ^ t.bits

/-- The function `isFree`: 1 when `size_status % 4 == 0`, else 0. -/
def isFree (block : block_header) : Int :=
  if Int.tmod block.size_status 4 = 0 then 1 else 0

/-- The function `Mem_Init`.  The results of `open` and `mmap` are the
arguments `fd` and `space_ptr`; `MAP_FAILED` is `(void*)-1`. -/
def Mem_Init (t : Target) (fd space_ptr : Int) (s : Heap)
    (sizeOfRegion : Int) : Heap × Int :=
  if 0 ≠ s.allocated_once then (s, -1)
  else if sizeOfRegion ≤ 0 then (s, -1)
  else
    let pagesize := t.pagesize
    let padsize := Int.tmod sizeOfRegion pagesize
    let padsize := Int.tmod (pagesize - padsize) pagesize
    let alloc_size := sizeOfRegion + padsize
    if -1 = fd then (s, -1)
    else if -1 = space_ptr then ({ s with allocated_once := 0 }, -1)
    else
      let m := setNext s.mem space_ptr 0
      let m := setSize m space_ptr (alloc_size - t.hdr)
      ({ allocated_once := 1, list_head := space_ptr, mem := m }, 0)

/-- The locals the search loop of `Mem_Alloc` updates. -/
structure Search where
  cushion : Int
  best_fit : Int
  found : Int
deriving DecidableEq, Repr

/-- One pass through the body of the search loop of `Mem_Alloc`, at `itr`. -/
def bestFitStep (m : Memory) (request_size whole_block : Int) (st : Search)
    (itr : Int) : Search :=
  if isFree (m itr) ≠ 0 then
    if request_size < (m itr).size_status then
      if (m itr).size_status - whole_block < st.cushion then
        { cushion := (m itr).size_status - whole_block, best_fit := itr, found := 1 }
      else st
    else st
  else st

/-- The search loop of `Mem_Alloc`: `while (NULL != itr) { ...; itr = itr->next; }`. -/
def bestFitLoop (m : Memory) (request_size whole_block : Int) :
    Nat → Int → Search → Option Search
  | 0, itr, st => if itr = 0 then some st else none
  | fuel + 1, itr, st =>
    if itr = 0 then some st
    else bestFitLoop m request_size whole_block fuel (m itr).next
      (bestFitStep m request_size whole_block st itr)

/-- The first lines of `Mem_Alloc`: round `size` up to a multiple of 4 with C's
truncating `%`. -/
def roundRequest (size : Int) : Int :=
  if Int.tmod size 4 ≠ 0 then size - Int.tmod size 4 + 4 else size

/-- The block of `Mem_Alloc` guarded by `if(found)`: the writes to memory. -/
def allocWrites (t : Target) (m : Memory) (request_size whole_block : Int)
    (r : Search) : Memory :=
  let m := setSize m r.best_fit request_size
  let m :=
    if toSizeT t r.cushion ≥ t.hdr + 4 then
      let next_blockptr := r.best_fit + whole_block
      let m := setSize m next_blockptr (r.cushion - t.hdr)
      let m :=
        if 0 ≠ (m r.best_fit).next then setNext m next_blockptr (m r.best_fit).next
        else setNext m next_blockptr 0
      setNext m r.best_fit next_blockptr
    else m
  setSize m r.best_fit ((m r.best_fit).size_status + 1)

/-- The function `Mem_Alloc`.  The returned pointer is `best_fit +
sizeof(block_header)` on a `block_header*`, which the compiler scales by the
size of the pointee. -/
def Mem_Alloc (t : Target) (fuel : Nat) (s : Heap) (size : Int) :
    Option (Heap × Int) :=
  let request_size := roundRequest size
  let whole_block := request_size + t.hdr
  match bestFitLoop s.mem request_size whole_block fuel s.list_head ⟨10000000, 0, 0⟩ with
  | none => none
  | some r =>
    if r.found ≠ 0 then
      some ({ s with mem := allocWrites t s.mem request_size whole_block r },
        r.best_fit + t.hdr * t.hdr)
    else some (s, 0)

/-- The predecessor loop of `Mem_Free`. -/
def prevLoop (t : Target) (free : Int) : Nat → Int → Memory → Option Memory
  | 0, itr, m => if itr = 0 then some m else none
  | fuel + 1, itr, m =>
    if itr = 0 then some m
    else if (m itr).next = free ∧ isFree (m itr) ≠ 0 then
      let m := setSize m itr ((m itr).size_status + ((m free).size_status + t.hdr))
      some (setNext m itr (m free).next)
    else prevLoop t free fuel (m itr).next m

/-- The writes of `Mem_Free` between the `isFree` test and the predecessor
loop: clear the flag, then absorb a free successor. -/
def freeWrites (t : Target) (m : Memory) (free next : Int) : Memory :=
  let m := setSize m free ((m free).size_status - 1)
  if 0 ≠ next then
    if isFree (m next) ≠ 0 then
      let m := setSize m free ((m free).size_status + ((m next).size_status + t.hdr))
      setNext m free (m next).next
    else m
  else m

/-- The function `Mem_Free`.  `free -= 8` on a `block_header*` moves the
pointer by eight headers. -/
def Mem_Free (t : Target) (fuel : Nat) (s : Heap) (ptr : Int) :
    Option (Heap × Int) :=
  if 0 = ptr then some (s, -1)
  else
    let free := ptr - 8 * t.hdr
    let next := (s.mem free).next
    if isFree (s.mem free) ≠ 0 then some (s, -1)
    else
      let m := freeWrites t s.mem free next
      let itr := s.list_head
      if itr = free then some ({ s with mem := m }, 0)
      else
        match prevLoop t free fuel itr m with
        | none => none
        | some m => some ({ s with mem := m }, 0)

/-- One line of the table `Mem_Dump` prints; `busy` is the status column
(`Busy` when true, `Free` when false). -/
structure DumpLine where
  counter : Int
  busy : Bool
  Begin : Int
  End : Int
  Size : Int
  t_Size : Int
  t_Begin : Int
deriving DecidableEq, Repr

/-- The running totals of `Mem_Dump`. -/
structure DumpTotals where
  free_size : Int
  busy_size : Int
  total_size : Int
  counter : Int
deriving DecidableEq, Repr

/-- The loop of `Mem_Dump`.  `Size & 1` is the low bit of a two's complement
`int`, which is `Size % 2` with a non-negative remainder. -/
def dumpLoop (t : Target) (m : Memory) :
    Nat → Int → DumpTotals → List DumpLine → Option (DumpTotals × List DumpLine)
  | 0, current, acc, out => if current = 0 then some (acc, out) else none
  | fuel + 1, current, acc, out =>
    if current = 0 then some (acc, out)
    else
      let t_Begin := current
      let Begin := t_Begin + t.hdr
      let Size := (m current).size_status
      if Size % 2 ≠ 0 then
        let Size := Size - 1
        let t_Size := Size + t.hdr
        let End := Begin + Size - 1
        dumpLoop t m fuel (m current).next
          { acc with busy_size := acc.busy_size + t_Size,
                     total_size := acc.total_size + t_Size,
                     counter := acc.counter + 1 }
          (out ++ [⟨acc.counter, true, Begin, End, Size, t_Size, t_Begin⟩])
      else
        let t_Size := Size + t.hdr
        let End := Begin + Size - 1
        dumpLoop t m fuel (m current).next
          { acc with free_size := acc.free_size + t_Size,
                     total_size := acc.total_size + t_Size,
                     counter := acc.counter + 1 }
          (out ++ [⟨acc.counter, false, Begin, End, Size, t_Size, t_Begin⟩])

/-- The function `Mem_Dump`: the state it leaves, the lines of the table and
the totals it prints. -/
def Mem_Dump (t : Target) (fuel : Nat) (s : Heap) :
    Option (Heap × List DumpLine × DumpTotals) :=
  (dumpLoop t s.mem fuel s.list_head ⟨0, 0, 0, 1⟩ []).map (fun r => (s, r.2, r.1))

/-- The headers met by following `next` from `p` until `NULL`, with their
addresses, in list order. -/
def blocks (m : Memory) : Nat → Int → Option (List (Int × block_header))
  | 0, p => if p = 0 then some [] else none
  | fuel + 1, p =>
    if p = 0 then some []
    else (blocks m fuel (m p).next).map (fun l => (p, m p) :: l)

/-- Payload size a `size_status` word stands for: the word itself for a free
block, one less for an allocated one. -/
def payload (b : block_header) : Int :=
  if isFree b ≠ 0 then b.size_status else b.size_status - 1

/-- Sum of header size plus payload size over a list of blocks. -/
def totalSize (t : Target) (l : List (Int × block_header)) : Int :=
  (l.map (fun x => t.hdr + payload x.2)).sum

/-- The observable list of a state: addresses and headers from `list_head`. -/
def Heap.blocks (s : Heap) (fuel : Nat) : Option (List (Int × block_header)) :=
  MockHeap.blocks s.mem fuel s.list_head

/-- States the program can be in after a successful `Mem_Init` on a fresh
process followed by any calls of `Mem_Alloc` and `Mem_Free` that return. -/
inductive Reachable (t : Target) : Heap → Prop
  | init (fd space_ptr sizeOfRegion : Int) (s : Heap) :
      Mem_Init t fd space_ptr Heap.boot sizeOfRegion = (s, 0) → Reachable t s
  | alloc (fuel : Nat) (s s' : Heap) (size p : Int) :
      Reachable t s → Mem_Alloc t fuel s size = some (s', p) → Reachable t s'
  | free (fuel : Nat) (s s' : Heap) (ptr r : Int) :
      Reachable t s → Mem_Free t fuel s ptr = some (s', r) → Reachable t s'

/-- A 4096-byte arena mapped at address 65536 on the 32-bit target. -/
def arena32 : Heap := (Mem_Init ilp32 3 65536 Heap.boot 4096).1

/-- A 4096-byte arena mapped at address 65536 on the 64-bit target. -/
def arena64 : Heap := (Mem_Init lp64 3 65536 Heap.boot 4096).1

/-- The state after a call of `Mem_Alloc` (the old state if the call does not
return). -/
def afterAlloc (t : Target) (fuel : Nat) (s : Heap) (size : Int) : Heap :=
  ((Mem_Alloc t fuel s size).map Prod.fst).getD s

/-- The state after a call of `Mem_Free` (the old state if the call does not
return). -/
def afterFree (t : Target) (fuel : Nat) (s : Heap) (ptr : Int) : Heap :=
  ((Mem_Free t fuel s ptr).map Prod.fst).getD s

/-- The 32-bit arena after `Mem_Alloc(4)`. -/
def alloc4 : Heap := afterAlloc ilp32 1 arena32 4

/-- The 32-bit arena after `Mem_Alloc(4)` and `Mem_Free` of the pointer that
call returned. -/
def freedOnce : Heap := afterFree ilp32 0 alloc4 65600

/-- The 32-bit arena after `Mem_Alloc(4056)`: a busy block followed by a free
block of payload 16 that ends the list. -/
def tail16 : Heap := afterAlloc ilp32 1 arena32 4056

/-- Three free blocks of payload 40, 16 and 100, in list order, on the 32-bit
target. -/
def threeFree : Heap :=
  { allocated_once := 1
    list_head := 1000
    mem := Function.update (Function.update (Function.update zeroMemory
      1000 ⟨1048, 40⟩) 1048 ⟨1072, 16⟩) 1072 ⟨0, 100⟩ }

/-- The 32-bit arena after `p = Mem_Alloc(100)` and after the client has stored
the two words 0 and 5 at `p`, the address it was given (65600). -/
def clientData : Heap :=
  { afterAlloc ilp32 1 arena32 100 with
    mem := Function.update (afterAlloc ilp32 1 arena32 100).mem 65600 ⟨0, 5⟩ }

/-- The 32-bit arena after `Mem_Alloc(-8)`. -/
def negativeRequest : Heap := afterAlloc ilp32 1 arena32 (-8)

/-- The 32-bit arena after `Mem_Alloc(16)`, `Mem_Alloc(-16)`, `Mem_Alloc(-16)`,
`Mem_Free` of the second pointer and `Mem_Alloc(0)`. -/
def shuffled : Heap :=
  afterAlloc ilp32 4 (afterFree ilp32 4 (afterAlloc ilp32 3 (afterAlloc ilp32 2
    (afterAlloc ilp32 1 arena32 16) (-16)) (-16)) 65624) 0

/-- The 64-bit arena after `Mem_Alloc(4)`. -/
def alloc4on64 : Heap := afterAlloc lp64 1 arena64 4

/-- A free block the search loop compares against its best so far: `isFree`
holds and the rounded request is strictly below `size_status`. -/
def Candidate (request_size : Int) (b : block_header) : Prop :=
  isFree b ≠ 0 ∧ request_size < b.size_status

instance (request_size : Int) (b : block_header) : Decidable (Candidate request_size b) := by
  unfold Candidate; infer_instance

/-- Every header cell of memory holds a multiple of 4, or one more. -/
def Tagged (m : Memory) : Prop :=
  ∀ a, (m a).size_status % 4 = 0 ∨ (m a).size_status % 4 = 1

/-- A 16 MiB arena mapped at address 65536 on the 32-bit target. -/
def bigArena : Heap := (Mem_Init ilp32 3 65536 Heap.boot 16777216).1

/-- The 32-bit arena after `Mem_Alloc(4056)` and `Mem_Alloc(12)`. -/
def tail16Split : Heap := afterAlloc ilp32 2 tail16 12

/-- The 32-bit arena after `Mem_Alloc(16)` twice and `Mem_Free` of the first
pointer: a free block of payload 16 directly followed by a busy block. -/
def freedFirst : Heap :=
  afterFree ilp32 0 (afterAlloc ilp32 2 (afterAlloc ilp32 1 arena32 16) 16) 65600

/-- The 32-bit arena after three calls `Mem_Alloc(16)`: blocks A, B, C at
65536, 65560, 65584 and the free rest. -/
def threeBusy : Heap :=
  afterAlloc ilp32 3 (afterAlloc ilp32 2 (afterAlloc ilp32 1 arena32 16) 16) 16

/-- The state `threeBusy` after `Mem_Free` of B and then of A. -/
def freedBA : Heap := afterFree ilp32 4 (afterFree ilp32 4 threeBusy 65624) 65600

/-- Sum of payload size plus header size over the allocated blocks of a list. -/
def busyTotal (t : Target) (l : List (Int × block_header)) : Int :=
  ((l.filter (fun x => isFree x.2 = 0)).map (fun x => payload x.2 + t.hdr)).sum

/-- Sum of payload size plus header size over the free blocks of a list. -/
def freeTotal (t : Target) (l : List (Int × block_header)) : Int :=
  ((l.filter (fun x => isFree x.2 ≠ 0)).map (fun x => payload x.2 + t.hdr)).sum

/-- The nodes met by following `next` from `p` up to, and not including, the
address `q`. -/
def Seg (m : Memory) : Int → List (Int × block_header) → Int → Prop
  | p, [], q => p = q
  | p, x :: l, q => p ≠ 0 ∧ x.1 = p ∧ x.2 = m p ∧ Seg m x.2.next l q

/-- Successor coalescing as the specification words it, for a target with header
`T` followed in the list by `post`: when the block that follows is free the
target's payload becomes its payload plus the header size plus the successor's
payload, its `next` becomes the successor's `next` and the successor leaves the
list; otherwise the target only loses its flag.  The result is the target's new
header and the nodes after it. -/
def absorbSuccessor (t : Target) (T : block_header) :
    List (Int × block_header) → block_header × List (Int × block_header)
  | [] => (⟨T.next, payload T⟩, [])
  | S :: post =>
    if isFree S.2 ≠ 0 then (⟨S.2.next, payload T + t.hdr + payload S.2⟩, post)
    else (⟨T.next, payload T⟩, S :: post)

/-- Predecessor coalescing as the specification words it: `pre` are the nodes
before the target, `T` is the target's header after successor coalescing (free by
then, so its `size_status` is its payload) and `rest` the nodes after it.  When
the last node of `pre` is free it absorbs the target with the same arithmetic and
splice and the target leaves the list. -/
def absorbIntoPredecessor (t : Target) (pre : List (Int × block_header)) (ta : Int)
    (T : block_header) (rest : List (Int × block_header)) :
    List (Int × block_header) :=
  match pre.getLast? with
  | none => (ta, T) :: rest
  | some P =>
    if isFree P.2 ≠ 0 then
      pre.dropLast ++ (P.1, ⟨T.next, payload P.2 + t.hdr + T.size_status⟩) :: rest
    else pre ++ (ta, T) :: rest

/-- The list the specification asks for after freeing the allocated block at
`ta` with header `T` in the list `pre ++ (ta, T) :: post`. -/
def coalesced (t : Target) (pre : List (Int × block_header)) (ta : Int)
    (T : block_header) (post : List (Int × block_header)) :
    List (Int × block_header) :=
  absorbIntoPredecessor t pre ta (absorbSuccessor t T post).1 (absorbSuccessor t T post).2

/-! ## The list read from memory -/

theorem blocks_snd (m : Memory) :
    ∀ (fuel : Nat) (p : Int) (l : List (Int × block_header)),
      blocks m fuel p = some l → ∀ x ∈ l, x.2 = m x.1 := by
  intro fuel
  induction fuel with
  | zero =>
    intro p l h x hx
    unfold blocks at h
    split at h
    · cases h; cases hx
    · cases h
  | succ n ih =>
    intro p l h x hx
    unfold blocks at h
    split at h
    · cases h; cases hx
    · cases hb : blocks m n (m p).next with
      | none => rw [hb] at h; cases h
      | some l0 =>
        rw [hb] at h
        simp only [Option.map_some'] at h
        cases h
        rcases List.mem_cons.mp hx with rfl | hx
        · rfl
        · exact ih _ _ hb x hx

theorem bestFitLoop_eq_foldl (m : Memory) (rq wb : Int) :
    ∀ (fuel : Nat) (p : Int) (st : Search) (l : List (Int × block_header)),
      blocks m fuel p = some l →
      bestFitLoop m rq wb fuel p st
        = some (l.foldl (fun st x => bestFitStep m rq wb st x.1) st) := by
  intro fuel
  induction fuel with
  | zero =>
    intro p st l h
    unfold blocks at h
    unfold bestFitLoop
    split at h
    · cases h; simp [*]
    · cases h
  | succ n ih =>
    intro p st l h
    unfold blocks at h
    unfold bestFitLoop
    split at h
    · cases h; simp [*]
    · rename_i hp
      cases hb : blocks m n (m p).next with
      | none => rw [hb] at h; cases h
      | some l0 =>
        rw [hb] at h
        simp only [Option.map_some'] at h
        cases h
        rw [if_neg hp, ih _ _ _ hb]
        rfl

theorem blocks_of_bestFitLoop (m : Memory) (rq wb : Int) :
    ∀ (fuel : Nat) (p : Int) (st r : Search),
      bestFitLoop m rq wb fuel p st = some r → ∃ l, blocks m fuel p = some l := by
  intro fuel
  induction fuel with
  | zero =>
    intro p st r h
    unfold bestFitLoop at h
    unfold blocks
    split at h
    · exact ⟨[], by simp [*]⟩
    · cases h
  | succ n ih =>
    intro p st r h
    unfold bestFitLoop at h
    unfold blocks
    split at h
    · exact ⟨[], by simp [*]⟩
    · rename_i hp
      obtain ⟨l0, hl0⟩ := ih _ _ _ h
      exact ⟨(p, m p) :: l0, by simp [hp, hl0]⟩

/-- What the search loop has computed after a pass over the list `l`. -/
theorem bestFit_foldl_spec (m : Memory) (rq wb : Int)
    (l : List (Int × block_header)) (hl : ∀ x ∈ l, x.2 = m x.1) :
    let r := l.foldl (fun st x => bestFitStep m rq wb st x.1) ⟨10000000, 0, 0⟩
    (r.found = 0 ∧ r.cushion = 10000000 ∧
        ∀ x ∈ l, Candidate rq x.2 → 10000000 ≤ x.2.size_status - wb) ∨
    (r.found = 1 ∧ r.cushion < 10000000 ∧
      ∃ l1 b l2, l = l1 ++ b :: l2 ∧ r.best_fit = b.1 ∧ Candidate rq b.2 ∧
        r.cushion = b.2.size_status - wb ∧
        (∀ x ∈ l1, Candidate rq x.2 → r.cushion < x.2.size_status - wb) ∧
        (∀ x ∈ l2, Candidate rq x.2 → r.cushion ≤ x.2.size_status - wb)) := by
  induction l using List.reverseRecOn with
  | nil => left; simp
  | append_singleton l x ih =>
    have hl0 : ∀ y ∈ l, y.2 = m y.1 := fun y hy => hl y (List.mem_append_left _ hy)
    have hx : x.2 = m x.1 := hl x (by simp)
    specialize ih hl0
    simp only [List.foldl_append, List.foldl_cons, List.foldl_nil]
    simp only at ih
    generalize l.foldl (fun st x => bestFitStep m rq wb st x.1) ⟨10000000, 0, 0⟩ = r0 at ih
    unfold bestFitStep
    rw [← hx]
    by_cases hc : Candidate rq x.2
    · obtain ⟨hf, hlt⟩ := hc
      rw [if_pos hf, if_pos hlt]
      by_cases hbetter : x.2.size_status - wb < r0.cushion
      · rw [if_pos hbetter]
        right
        refine ⟨rfl, ?_, l, x, [], rfl, rfl, ⟨hf, hlt⟩, rfl, ?_, by simp⟩
        · rcases ih with ⟨_, h2, _⟩ | ⟨_, h2, _⟩ <;> simp only <;> omega
        · intro y hy hyc
          simp only
          rcases ih with ⟨_, h2, h3⟩ | ⟨_, _, l1, b, l2, rfl, _, _, h5, h6, h7⟩
          · have := h3 y hy hyc; omega
          · rcases List.mem_append.mp hy with hy | hy
            · have := h6 y hy hyc; omega
            · rcases List.mem_cons.mp hy with rfl | hy
              · omega
              · have := h7 y hy hyc; omega
      · rw [if_neg hbetter]
        rcases ih with ⟨h1, h2, h3⟩ | ⟨h1, h2, l1, b, l2, rfl, h4, hcb, h5, h6, h7⟩
        · left
          refine ⟨h1, h2, ?_⟩
          intro y hy hyc
          rcases List.mem_append.mp hy with hy | hy
          · exact h3 y hy hyc
          · simp only [List.mem_singleton] at hy
            subst hy; omega
        · right
          refine ⟨h1, h2, l1, b, l2 ++ [x], by simp, h4, hcb, h5, h6, ?_⟩
          intro y hy hyc
          rcases List.mem_append.mp hy with hy | hy
          · exact h7 y hy hyc
          · simp only [List.mem_singleton] at hy
            subst hy; omega
    · have hstep : (if isFree x.2 ≠ 0 then
            if rq < x.2.size_status then
              if x.2.size_status - wb < r0.cushion then
                ({ cushion := x.2.size_status - wb, best_fit := x.1, found := 1 } : Search)
              else r0
            else r0
          else r0) = r0 := by
        unfold Candidate at hc
        by_cases hf : isFree x.2 ≠ 0
        · have : ¬ rq < x.2.size_status := fun h => hc ⟨hf, h⟩
          rw [if_pos hf, if_neg this]
        · rw [if_neg hf]
      rw [hstep]
      rcases ih with ⟨h1, h2, h3⟩ | ⟨h1, h2, l1, b, l2, rfl, h4, hcb, h5, h6, h7⟩
      · left
        refine ⟨h1, h2, ?_⟩
        intro y hy hyc
        rcases List.mem_append.mp hy with hy | hy
        · exact h3 y hy hyc
        · simp only [List.mem_singleton] at hy
          subst hy; exact absurd hyc hc
      · right
        refine ⟨h1, h2, l1, b, l2 ++ [x], by simp, h4, hcb, h5, h6, ?_⟩
        intro y hy hyc
        rcases List.mem_append.mp hy with hy | hy
        · exact h7 y hy hyc
        · simp only [List.mem_singleton] at hy
          subst hy; exact absurd hyc hc

/-! ## Flag arithmetic -/

theorem isFree_ne_zero_iff (b : block_header) :
    isFree b ≠ 0 ↔ b.size_status % 4 = 0 := by
  unfold isFree
  constructor
  · intro h
    split at h
    · rename_i h0
      exact Int.emod_eq_zero_of_dvd (Int.dvd_of_tmod_eq_zero h0)
    · exact absurd rfl h
  · intro h
    rw [if_pos (Int.tmod_eq_zero_of_dvd (Int.dvd_of_emod_eq_zero h))]
    decide

theorem roundRequest_mod (size : Int) : roundRequest size % 4 = 0 := by
  unfold roundRequest
  split
  · have := Int.tmod_add_tdiv size 4
    omega
  · rename_i h
    have := Int.dvd_of_tmod_eq_zero (Decidable.not_not.mp h)
    omega

theorem size_setSize (m : Memory) (p v a : Int) :
    ((setSize m p v) a).size_status = if a = p then v else (m a).size_status := by
  unfold setSize
  by_cases h : a = p
  · subst h; simp
  · simp [Function.update_noteq h, h]

theorem size_setNext (m : Memory) (p q a : Int) :
    ((setNext m p q) a).size_status = (m a).size_status := by
  unfold setNext
  by_cases h : a = p
  · subst h; simp
  · simp [Function.update_noteq h]

theorem Tagged_setSize {m : Memory} (hm : Tagged m) (p v : Int)
    (hv : v % 4 = 0 ∨ v % 4 = 1) : Tagged (setSize m p v) := by
  intro a
  rw [size_setSize]
  split
  · exact hv
  · exact hm a

theorem Tagged_setNext {m : Memory} (hm : Tagged m) (p q : Int) :
    Tagged (setNext m p q) := by
  intro a
  rw [size_setNext]
  exact hm a

theorem bestFitLoop_cushion_mod (m : Memory) (rq wb : Int) (hwb : wb % 4 = 0) :
    ∀ (fuel : Nat) (p : Int) (st r : Search), st.cushion % 4 = 0 →
      bestFitLoop m rq wb fuel p st = some r → r.cushion % 4 = 0 := by
  have hstep : ∀ (st : Search) (itr : Int), st.cushion % 4 = 0 →
      (bestFitStep m rq wb st itr).cushion % 4 = 0 := by
    intro st itr hst
    unfold bestFitStep
    split
    · rename_i hf
      have := (isFree_ne_zero_iff _).mp hf
      split
      · split
        · simp only; omega
        · exact hst
      · exact hst
    · exact hst
  intro fuel
  induction fuel with
  | zero =>
    intro p st r hst h
    unfold bestFitLoop at h
    split at h
    · cases h; exact hst
    · cases h
  | succ n ih =>
    intro p st r hst h
    unfold bestFitLoop at h
    split at h
    · cases h; exact hst
    · exact ih _ _ _ (hstep st p hst) h

theorem Tagged_allocWrites (t : Target) (h4 : t.hdr % 4 = 0) {m : Memory}
    (hm : Tagged m) (rq wb : Int) (r : Search) (hrq : rq % 4 = 0)
    (hr : r.cushion % 4 = 0) : Tagged (allocWrites t m rq wb r) := by
  unfold allocWrites
  have h1 : Tagged (setSize m r.best_fit rq) := Tagged_setSize hm _ _ (Or.inl hrq)
  have h1b : ((setSize m r.best_fit rq) r.best_fit).size_status % 4 = 0 := by
    rw [size_setSize]; simpa using hrq
  simp only
  split
  · apply Tagged_setSize
    · apply Tagged_setNext
      split
      · exact Tagged_setNext (Tagged_setSize h1 _ _ (Or.inl (by omega))) _ _
      · exact Tagged_setNext (Tagged_setSize h1 _ _ (Or.inl (by omega))) _ _
    · right
      rw [size_setNext]
      have key : ((setSize (setSize m r.best_fit rq) (r.best_fit + wb)
          (r.cushion - t.hdr)) r.best_fit).size_status % 4 = 0 := by
        rw [size_setSize]
        split
        · omega
        · exact h1b
      split
      · rw [size_setNext]; omega
      · rw [size_setNext]; omega
  · exact Tagged_setSize h1 _ _ (Or.inr (by omega))

theorem freeWrites_spec (t : Target) (h4 : t.hdr % 4 = 0) {m : Memory}
    (hm : Tagged m) (free next : Int) (hbusy : ¬ isFree (m free) ≠ 0) :
    Tagged (freeWrites t m free next) ∧
      ((freeWrites t m free next) free).size_status % 4 = 0 := by
  have hb : (m free).size_status % 4 = 1 := by
    rcases hm free with h | h
    · exact absurd ((isFree_ne_zero_iff _).mpr h) hbusy
    · exact h
  have h1 : Tagged (setSize m free ((m free).size_status - 1)) :=
    Tagged_setSize hm _ _ (Or.inl (by omega))
  have h1b : ((setSize m free ((m free).size_status - 1)) free).size_status % 4 = 0 := by
    rw [size_setSize]; simp only [if_true]; omega
  unfold freeWrites
  simp only
  split
  · split
    · rename_i hn hf
      have hnf := (isFree_ne_zero_iff _).mp hf
      refine ⟨Tagged_setNext (Tagged_setSize h1 _ _ (Or.inl (by omega))) _ _, ?_⟩
      rw [size_setNext, size_setSize]
      simp only [if_true]
      omega
    · exact ⟨h1, h1b⟩
  · exact ⟨h1, h1b⟩

theorem prevLoop_spec (t : Target) (h4 : t.hdr % 4 = 0) (free : Int) :
    ∀ (fuel : Nat) (itr : Int) (m m' : Memory),
      Tagged m → (m free).size_status % 4 = 0 →
      prevLoop t free fuel itr m = some m' →
      Tagged m' ∧ (m' free).size_status % 4 = 0 := by
  intro fuel
  induction fuel with
  | zero =>
    intro itr m m' hm hf h
    unfold prevLoop at h
    split at h
    · cases h; exact ⟨hm, hf⟩
    · cases h
  | succ n ih =>
    intro itr m m' hm hf h
    unfold prevLoop at h
    split at h
    · cases h; exact ⟨hm, hf⟩
    · split at h
      · rename_i hc
        have hi := (isFree_ne_zero_iff _).mp hc.2
        simp only [Option.some.injEq] at h
        subst h
        refine ⟨Tagged_setNext (Tagged_setSize hm _ _ (Or.inl (by omega))) _ _, ?_⟩
        rw [size_setNext, size_setSize]
        split
        · omega
        · exact hf
      · exact ih _ _ _ hm hf h

theorem pagesize_dvd_alloc_size (ps n : Int) :
    ps ∣ n + Int.tmod (ps - Int.tmod n ps) ps := by
  have h1 := Int.tmod_add_tdiv n ps
  have h2 := Int.tmod_add_tdiv (ps - Int.tmod n ps) ps
  refine ⟨Int.tdiv n ps + 1 - Int.tdiv (ps - Int.tmod n ps) ps, ?_⟩
  linear_combination (-1 : Int) * h1 + h2

theorem Tagged_zeroMemory : Tagged zeroMemory := by
  intro a; left; rfl

theorem Tagged_Mem_Init (t : Target) (h4 : t.hdr % 4 = 0) (hp : t.pagesize % 4 = 0)
    (fd space_ptr sizeOfRegion : Int) (s : Heap)
    (h : Mem_Init t fd space_ptr Heap.boot sizeOfRegion = (s, 0)) : Tagged s.mem := by
  unfold Mem_Init at h
  have hd : (4 : Int) ∣ sizeOfRegion
      + Int.tmod (t.pagesize - Int.tmod sizeOfRegion t.pagesize) t.pagesize :=
    Dvd.dvd.trans (Int.dvd_of_emod_eq_zero hp) (pagesize_dvd_alloc_size _ _)
  have hm := Int.emod_eq_zero_of_dvd hd
  simp only [Heap.boot] at h
  split_ifs at h
  all_goals
    simp only [Prod.mk.injEq] at h
    first
      | (exfalso; omega)
      | (obtain ⟨rfl, _⟩ := h
         exact Tagged_setSize (Tagged_setNext Tagged_zeroMemory _ _) _ _ (Or.inl (by omega)))

theorem Tagged_Mem_Alloc (t : Target) (h4 : t.hdr % 4 = 0) (fuel : Nat) (s s' : Heap)
    (size p : Int) (hs : Tagged s.mem) (h : Mem_Alloc t fuel s size = some (s', p)) :
    Tagged s'.mem := by
  unfold Mem_Alloc at h
  simp only at h
  have hrq := roundRequest_mod size
  cases hb : bestFitLoop s.mem (roundRequest size) (roundRequest size + t.hdr) fuel
      s.list_head ⟨10000000, 0, 0⟩ with
  | none => rw [hb] at h; cases h
  | some r =>
    rw [hb] at h
    have hr := bestFitLoop_cushion_mod s.mem _ _ (by omega) fuel _ _ r (by decide) hb
    simp only at h
    split at h
    · simp only [Option.some.injEq, Prod.mk.injEq] at h
      obtain ⟨rfl, _⟩ := h
      exact Tagged_allocWrites t h4 hs _ _ r hrq hr
    · simp only [Option.some.injEq, Prod.mk.injEq] at h
      obtain ⟨rfl, _⟩ := h
      exact hs

/-- A call of `Mem_Free` that clears a flag leaves every cell tagged and the
cell it was aimed at free. -/
theorem Mem_Free_spec (t : Target) (h4 : t.hdr % 4 = 0) (fuel : Nat) (s s' : Heap)
    (ptr r : Int) (hs : Tagged s.mem) (h : Mem_Free t fuel s ptr = some (s', r)) :
    Tagged s'.mem ∧
      (r = 0 → ptr ≠ 0 ∧ (s'.mem (ptr - 8 * t.hdr)).size_status % 4 = 0) := by
  unfold Mem_Free at h
  split at h
  · simp only [Option.some.injEq, Prod.mk.injEq] at h
    obtain ⟨rfl, rfl⟩ := h
    exact ⟨hs, fun h0 => absurd h0 (by decide)⟩
  · rename_i hptr
    simp only at h
    split at h
    · simp only [Option.some.injEq, Prod.mk.injEq] at h
      obtain ⟨rfl, rfl⟩ := h
      exact ⟨hs, fun h0 => absurd h0 (by decide)⟩
    · rename_i hbusy
      have hw := freeWrites_spec t h4 hs (ptr - 8 * t.hdr)
        (s.mem (ptr - 8 * t.hdr)).next hbusy
      split at h
      · simp only [Option.some.injEq, Prod.mk.injEq] at h
        obtain ⟨rfl, rfl⟩ := h
        exact ⟨hw.1, fun _ => ⟨fun h0 => hptr h0.symm, hw.2⟩⟩
      · cases hl : prevLoop t (ptr - 8 * t.hdr) fuel s.list_head
            (freeWrites t s.mem (ptr - 8 * t.hdr) (s.mem (ptr - 8 * t.hdr)).next) with
        | none => rw [hl] at h; cases h
        | some m' =>
          rw [hl] at h
          simp only [Option.some.injEq, Prod.mk.injEq] at h
          obtain ⟨rfl, rfl⟩ := h
          have := prevLoop_spec t h4 _ fuel _ _ m' hw.1 hw.2 hl
          exact ⟨this.1, fun _ => ⟨fun h0 => hptr h0.symm, this.2⟩⟩

theorem Reachable_Tagged (t : Target) (h4 : t.hdr % 4 = 0) (hp : t.pagesize % 4 = 0)
    (s : Heap) (hs : Reachable t s) : Tagged s.mem := by
  induction hs with
  | init fd space_ptr sizeOfRegion s h => exact Tagged_Mem_Init t h4 hp _ _ _ s h
  | alloc fuel s s' size p _ h ih => exact Tagged_Mem_Alloc t h4 fuel s s' size p ih h
  | free fuel s s' ptr r _ h ih => exact (Mem_Free_spec t h4 fuel s s' ptr r ih h).1

/-! ## The claims -/

/-- C1, evaluated at the failing input.  On the 32-bit target a fresh 4096-byte
arena is one block whose header and payload sum to 4096.  After `Mem_Alloc(4)`,
which splits, the two blocks sum to 4088; after `Mem_Alloc(4080)` instead, which
does not split, the one block sums to 4088. -/
theorem block_sum_after_alloc :
    (arena32.blocks 1).map (totalSize ilp32) = some 4096 ∧
    (Mem_Alloc ilp32 1 arena32 4).map
        (fun r => (r.1.blocks 2, (r.1.blocks 2).map (totalSize ilp32)))
      = some (some [(65536, ⟨65548, 5⟩), (65548, ⟨0, 4068⟩)], some 4088) ∧
    (Mem_Alloc ilp32 1 arena32 4080).map
        (fun r => (r.1.blocks 1, (r.1.blocks 1).map (totalSize ilp32)))
      = some (some [(65536, ⟨0, 4081⟩)], some 4088) := by
  decide

/-- C2, evaluated at the failing input.  On the 32-bit target the fresh arena is
the single free block of `size_status` 4088; `Mem_Alloc(4)` returns 65600, and
`Mem_Free(65600)` returns 0 and leaves a single free block at the same address
whose `size_status` is 4080. -/
theorem round_trip_size_status :
    arena32.blocks 1 = some [(65536, ⟨0, 4088⟩)] ∧
    Mem_Alloc ilp32 1 arena32 4 = some (alloc4, 65600) ∧
    (Mem_Free ilp32 0 alloc4 65600).map (fun r => (r.2, r.1.blocks 1))
      = some (0, some [(65536, ⟨0, 4080⟩)]) :=
  ⟨by decide, rfl, by decide⟩

/-- C3, evaluated at the failing input.  On the 32-bit target `Mem_Alloc(-8)` on
the fresh arena returns 65600 and leaves the head block with `next` pointing at
itself; `Mem_Free(65600)` then returns 0 and the head block and its `next` (the
same header) are both free.  A longer run ends with two different nodes:
after `Mem_Alloc(16)` (returns 65600), `Mem_Alloc(-16)` (returns 65624),
`Mem_Alloc(-16)`, `Mem_Free(65624)` and `Mem_Alloc(0)`, the call
`Mem_Free(65600)` returns 0 and leaves the list of the two free blocks at 65536
and 65552. -/
theorem adjacent_free_after_negative_request :
    Mem_Alloc ilp32 1 arena32 (-8) = some (negativeRequest, 65600) ∧
    (negativeRequest.list_head, negativeRequest.mem 65536) = (65536, ⟨65536, 4081⟩) ∧
    (Mem_Free ilp32 0 negativeRequest 65600).map
        (fun r => (r.2, r.1.list_head, r.1.mem r.1.list_head,
          isFree (r.1.mem r.1.list_head),
          isFree (r.1.mem (r.1.mem r.1.list_head).next)))
      = some (0, 65536, ⟨65536, 8168⟩, 1, 1) ∧
    (Mem_Alloc ilp32 1 arena32 16).map Prod.snd = some 65600 ∧
    (Mem_Alloc ilp32 2 (afterAlloc ilp32 1 arena32 16) (-16)).map Prod.snd = some 65624 ∧
    shuffled.blocks 3
      = some [(65536, ⟨65560, 17⟩), (65560, ⟨65552, -16⟩), (65552, ⟨0, 4040⟩)] ∧
    (Mem_Free ilp32 0 shuffled 65600).map
        (fun r => (r.2, r.1.blocks 2, (r.1.blocks 2).map (List.map (fun x => isFree x.2))))
      = some (0, some [(65536, ⟨65552, 8⟩), (65552, ⟨0, 4040⟩)], some [1, 1]) :=
  ⟨rfl, by decide, by decide, by decide, by decide, by decide!, by decide!⟩

/-- C4: when `Mem_Alloc` returns a non-NULL pointer, the list it walked splits as
`l1 ++ b :: l2` where `b` is the block the pointer was computed from; `b` is a
candidate (free, `size_status` above the rounded request); every candidate
before it in list order has a strictly larger leftover and every candidate after
it has a leftover at least as large. -/
theorem Mem_Alloc_best_fit (t : Target) (fuel : Nat) (s : Heap) (size p : Int)
    (h : (Mem_Alloc t fuel s size).map Prod.snd = some p) (hp : p ≠ 0) :
    ∃ l l1 b l2, s.blocks fuel = some l ∧ l = l1 ++ b :: l2 ∧
      p = b.1 + t.hdr * t.hdr ∧ b.2 = s.mem b.1 ∧
      Candidate (roundRequest size) b.2 ∧
      (∀ x ∈ l1, Candidate (roundRequest size) x.2 →
        b.2.size_status - (roundRequest size + t.hdr)
          < x.2.size_status - (roundRequest size + t.hdr)) ∧
      (∀ x ∈ l2, Candidate (roundRequest size) x.2 →
        b.2.size_status - (roundRequest size + t.hdr)
          ≤ x.2.size_status - (roundRequest size + t.hdr)) := by
  unfold Mem_Alloc at h
  simp only at h
  cases hb : bestFitLoop s.mem (roundRequest size) (roundRequest size + t.hdr) fuel
      s.list_head ⟨10000000, 0, 0⟩ with
  | none => rw [hb] at h; cases h
  | some r =>
    rw [hb] at h
    obtain ⟨l, hl⟩ := blocks_of_bestFitLoop _ _ _ _ _ _ _ hb
    have hsnd := blocks_snd _ _ _ _ hl
    rw [bestFitLoop_eq_foldl _ _ _ _ _ _ _ hl] at hb
    have spec := bestFit_foldl_spec s.mem (roundRequest size) (roundRequest size + t.hdr)
      l hsnd
    simp only at spec
    simp only [Option.some.injEq] at hb
    rw [hb] at spec
    rcases spec with ⟨h0, _, _⟩ | ⟨_, _, l1, b, l2, hlb, hbest, hc, hcu, h6, h7⟩
    · simp only [h0, ne_eq, not_true_eq_false, if_false, Option.map_some',
        Option.some.injEq] at h
      exact absurd h.symm hp
    · refine ⟨l, l1, b, l2, hl, hlb, ?_, ?_, hc, ?_, ?_⟩
      · have hf : r.found ≠ 0 := by omega
        simp only [hf, ne_eq, not_false_eq_true, if_true, Option.map_some',
          Option.some.injEq] at h
        rw [← h, hbest]
      · exact hsnd b (by rw [hlb]; simp)
      · intro x hx hxc
        have := h6 x hx hxc
        omega
      · intro x hx hxc
        have := h7 x hx hxc
        omega

/-- C4, the witness of the claim: free blocks of payload 40, 16 and 100 in list
order and a request of 12. -/
theorem Mem_Alloc_best_fit_witness :
    (Mem_Alloc ilp32 3 threeFree 12).map Prod.snd = some 1112 ∧ (1112 : Int) ≠ 0 ∧
    ∃ l l1 b l2, threeFree.blocks 3 = some l ∧ l = l1 ++ b :: l2 ∧
      (1112 : Int) = b.1 + ilp32.hdr * ilp32.hdr ∧ b.2 = threeFree.mem b.1 ∧
      Candidate (roundRequest 12) b.2 ∧
      (∀ x ∈ l1, Candidate (roundRequest 12) x.2 →
        b.2.size_status - (roundRequest 12 + ilp32.hdr)
          < x.2.size_status - (roundRequest 12 + ilp32.hdr)) ∧
      (∀ x ∈ l2, Candidate (roundRequest 12) x.2 →
        b.2.size_status - (roundRequest 12 + ilp32.hdr)
          ≤ x.2.size_status - (roundRequest 12 + ilp32.hdr)) :=
  ⟨by decide, by decide, Mem_Alloc_best_fit ilp32 3 threeFree 12 1112 (by decide) (by decide)⟩

/-- C5, the claim refuted.  In the 32-bit arena after `Mem_Alloc(4056)` the last
block is free with payload 16.  For a request of 12 the payload does not exceed
request plus header (20), yet the search picks that block, records the leftover
-4, and `Mem_Alloc(12)` returns the pointer computed from it. -/
theorem candidate_with_negative_leftover :
    tail16.blocks 2 = some [(65536, ⟨69600, 4057⟩), (69600, ⟨0, 16⟩)] ∧
    ¬ (roundRequest 12 + ilp32.hdr < (tail16.mem 69600).size_status) ∧
    bestFitLoop tail16.mem (roundRequest 12) (roundRequest 12 + ilp32.hdr) 2
      tail16.list_head ⟨10000000, 0, 0⟩ = some ⟨-4, 69600, 1⟩ ∧
    (Mem_Alloc ilp32 2 tail16 12).map Prod.snd = some (69600 + ilp32.hdr * ilp32.hdr) := by
  decide

/-- C5 as amended: on a list that `Mem_Alloc` walks to its end and whose
leftovers all lie below the initial bound 10000000 of the search, the search
finds a block exactly when some free block has `size_status` strictly above the
rounded request (the header size is not part of the test); the block it records
is in the list and is such a block, the recorded leftover is its `size_status`
minus request plus header and is strictly above minus the header size; and
`Mem_Alloc` returns according to that search result. -/
theorem Mem_Alloc_accepts (t : Target) (fuel : Nat) (s : Heap) (size : Int)
    (l : List (Int × block_header)) (hl : s.blocks fuel = some l)
    (hbig : ∀ x ∈ l, x.2.size_status - (roundRequest size + t.hdr) < 10000000) :
    ∃ r, bestFitLoop s.mem (roundRequest size) (roundRequest size + t.hdr) fuel
          s.list_head ⟨10000000, 0, 0⟩ = some r ∧
      (r.found ≠ 0 ↔ ∃ x ∈ l, Candidate (roundRequest size) x.2) ∧
      (r.found ≠ 0 →
        (r.best_fit, s.mem r.best_fit) ∈ l ∧
        Candidate (roundRequest size) (s.mem r.best_fit) ∧
        r.cushion = (s.mem r.best_fit).size_status - (roundRequest size + t.hdr) ∧
        -t.hdr < r.cushion) ∧
      Mem_Alloc t fuel s size = some
        (if r.found ≠ 0 then
          ({ s with
              mem := allocWrites t s.mem (roundRequest size) (roundRequest size + t.hdr) r },
            r.best_fit + t.hdr * t.hdr)
        else (s, 0)) := by
  have hsnd := blocks_snd _ _ _ _ hl
  have hloop := bestFitLoop_eq_foldl s.mem (roundRequest size) (roundRequest size + t.hdr)
    fuel s.list_head ⟨10000000, 0, 0⟩ l hl
  have spec := bestFit_foldl_spec s.mem (roundRequest size) (roundRequest size + t.hdr)
    l hsnd
  simp only at spec
  generalize l.foldl (fun st x => bestFitStep s.mem (roundRequest size)
    (roundRequest size + t.hdr) st x.1) ⟨10000000, 0, 0⟩ = r at hloop spec
  refine ⟨r, hloop, ?_, ?_, ?_⟩
  · rcases spec with ⟨h0, _, h3⟩ | ⟨h1, _, l1, b, l2, hlb, _, hc, _, _, _⟩
    · constructor
      · intro hf; exact absurd h0 hf
      · rintro ⟨x, hx, hxc⟩
        have := h3 x hx hxc
        have := hbig x hx
        omega
    · constructor
      · intro _; exact ⟨b, by rw [hlb]; simp, hc⟩
      · intro _; omega
  · intro hf
    rcases spec with ⟨h0, _, _⟩ | ⟨_, _, l1, b, l2, hlb, hbest, hc, hcu, _, _⟩
    · exact absurd h0 hf
    · have hbl : b ∈ l := by rw [hlb]; simp
      have hb2 := hsnd b hbl
      rw [hbest, ← hb2]
      refine ⟨hbl, hc, hcu, ?_⟩
      have := hc.2
      omega
  · unfold Mem_Alloc
    simp only [hloop]
    split <;> rfl

/-- C5 as amended, at the state with a free tail block of payload 16 and a
request of 12. -/
theorem Mem_Alloc_accepts_witness :
    tail16.blocks 2 = some [(65536, ⟨69600, 4057⟩), (69600, ⟨0, 16⟩)] ∧
    ∃ r, bestFitLoop tail16.mem (roundRequest 12) (roundRequest 12 + ilp32.hdr) 2
          tail16.list_head ⟨10000000, 0, 0⟩ = some r ∧
      (r.found ≠ 0 ↔ ∃ x ∈ [((65536 : Int), (⟨69600, 4057⟩ : block_header)),
          (69600, ⟨0, 16⟩)], Candidate (roundRequest 12) x.2) ∧
      (r.found ≠ 0 →
        (r.best_fit, tail16.mem r.best_fit) ∈ [((65536 : Int),
          (⟨69600, 4057⟩ : block_header)), (69600, ⟨0, 16⟩)] ∧
        Candidate (roundRequest 12) (tail16.mem r.best_fit) ∧
        r.cushion = (tail16.mem r.best_fit).size_status - (roundRequest 12 + ilp32.hdr) ∧
        -ilp32.hdr < r.cushion) ∧
      Mem_Alloc ilp32 2 tail16 12 = some
        (if r.found ≠ 0 then
          ({ tail16 with
              mem := allocWrites ilp32 tail16.mem (roundRequest 12)
                (roundRequest 12 + ilp32.hdr) r },
            r.best_fit + ilp32.hdr * ilp32.hdr)
        else (tail16, 0)) :=
  ⟨by decide, Mem_Alloc_accepts ilp32 2 tail16 12 _ (by decide) (by decide)⟩

/-- C6, evaluated at the failing input.  In the 32-bit arena after
`Mem_Alloc(4056)` the list has two nodes and the free tail block has payload 16.
`Mem_Alloc(12)` records the leftover -4, which is below header size plus 4, and
the list has three nodes afterwards: a node of `size_status` -12 was inserted
after the chosen block. -/
theorem negative_leftover_splits :
    tail16.blocks 2 = some [(65536, ⟨69600, 4057⟩), (69600, ⟨0, 16⟩)] ∧
    (bestFitLoop tail16.mem (roundRequest 12) (roundRequest 12 + ilp32.hdr) 2
      tail16.list_head ⟨10000000, 0, 0⟩).map (fun r => (r.best_fit, r.cushion))
        = some (69600, -4) ∧
    ¬ (ilp32.hdr + 4 ≤ (-4 : Int)) ∧
    toSizeT ilp32 (-4) = 4294967292 ∧
    (Mem_Alloc ilp32 2 tail16 12).map (fun r => (r.1.blocks 3, r.2))
      = some (some [(65536, ⟨69600, 4057⟩), (69600, ⟨69620, 13⟩), (69620, ⟨0, -12⟩)],
          69664) := by
  decide

/-- C7, evaluated at the failing input.  On the 32-bit target (header size 8)
`Mem_Alloc(4)` on the fresh arena chooses the block whose header is at 65536,
leaves `size_status` 5 there, and returns 65600, which is 64 bytes past the
header and not 8. -/
theorem returned_pointer_offset :
    (bestFitLoop arena32.mem (roundRequest 4) (roundRequest 4 + ilp32.hdr) 1
      arena32.list_head ⟨10000000, 0, 0⟩).map (fun r => r.best_fit) = some 65536 ∧
    (Mem_Alloc ilp32 1 arena32 4).map (fun r => (r.2, (r.1.mem 65536).size_status))
      = some (65536 + 64, roundRequest 4 + 1) ∧
    (65536 + 64 : Int) ≠ 65536 + ilp32.hdr := by
  decide

/-- C8, evaluated at the failing input.  On the 64-bit target (header size 16)
`Mem_Alloc(4)` on the fresh arena returns 65792 for the block whose header is at
65536, an offset of 256 bytes; `Mem_Free` steps back 128 bytes, to 65664, reads
the header there, returns -1 and leaves the block at 65536 allocated. -/
theorem free_offset_on_lp64 :
    Mem_Alloc lp64 1 arena64 4 = some (alloc4on64, 65536 + 256) ∧
    alloc4on64.blocks 2 = some [(65536, ⟨65556, 5⟩), (65556, ⟨0, 4044⟩)] ∧
    (65536 + 256 - 8 * lp64.hdr : Int) = 65536 + 128 ∧
    (Mem_Free lp64 2 alloc4on64 (65536 + 256)).map (fun r => (r.2, r.1.blocks 2))
      = some (-1, some [(65536, ⟨65556, 5⟩), (65556, ⟨0, 4044⟩)]) :=
  ⟨rfl, by decide, by decide, by decide⟩

/-- C9, evaluated at the failing input.  On the 32-bit target, after
`p = Mem_Alloc(100)` the client has stored the words 0 and 5 at `p` = 65600.
The list nodes are at 65536 and 65644.  `Mem_Free(65664)` computes the header
address 65600, which is no list node, and returns 0; it has decremented the
client word to 4 and left the list as it was. -/
theorem wild_free_returns_zero :
    clientData.blocks 2 = some [(65536, ⟨65644, 101⟩), (65644, ⟨0, 3972⟩)] ∧
    (65664 - 8 * ilp32.hdr : Int) = 65600 ∧
    (Mem_Free ilp32 2 clientData 65664).map
        (fun r => (r.2, r.1.blocks 2, r.1.mem 65600))
      = some (0, some [(65536, ⟨65644, 101⟩), (65644, ⟨0, 3972⟩)], ⟨0, 4⟩) := by
  decide

/-- C10: in a state reachable from a successful `Mem_Init` (header size and
page size multiples of 4), if `Mem_Free(ptr)` returns 0 then a second
`Mem_Free(ptr)` right after it returns -1, with any fuel, and leaves the state
as the first call left it. -/
theorem double_free_rejected (t : Target) (h4 : t.hdr % 4 = 0)
    (hp : t.pagesize % 4 = 0) (s : Heap) (hs : Reachable t s) (fuel : Nat)
    (ptr : Int) (s' : Heap) (h : Mem_Free t fuel s ptr = some (s', 0))
    (fuel' : Nat) : Mem_Free t fuel' s' ptr = some (s', -1) := by
  obtain ⟨_, hfree⟩ := Mem_Free_spec t h4 fuel s s' ptr 0 (Reachable_Tagged t h4 hp s hs) h
  obtain ⟨hptr, hmod⟩ := hfree rfl
  have hf := (isFree_ne_zero_iff _).mpr hmod
  unfold Mem_Free
  rw [if_neg (fun h0 => hptr h0.symm)]
  simp only
  rw [if_pos hf]

/-- C10 at the 32-bit arena after `Mem_Alloc(4)`: the first `Mem_Free(65600)`
returns 0, the second returns -1 and changes nothing. -/
theorem double_free_rejected_witness :
    ilp32.hdr % 4 = 0 ∧ ilp32.pagesize % 4 = 0 ∧ Reachable ilp32 alloc4 ∧
    Mem_Free ilp32 0 alloc4 65600 = some (freedOnce, 0) ∧
    Mem_Free ilp32 5 freedOnce 65600 = some (freedOnce, -1) :=
  have hr : Reachable ilp32 alloc4 :=
    Reachable.alloc 1 arena32 alloc4 4 65600 (Reachable.init 3 65536 4096 _ rfl) rfl
  ⟨by decide, by decide, hr, rfl,
    double_free_rejected ilp32 (by decide) (by decide) alloc4 hr 0 65600 freedOnce rfl 5⟩

/-- C11: when the list is walked to its end and every free block has
`size_status` at most the rounded request, `Mem_Alloc` returns NULL and the
state it returns is the state it was given. -/
theorem Mem_Alloc_no_fit (t : Target) (fuel : Nat) (s : Heap) (size : Int)
    (l : List (Int × block_header)) (hl : s.blocks fuel = some l)
    (hno : ∀ x ∈ l, isFree x.2 ≠ 0 → x.2.size_status ≤ roundRequest size) :
    Mem_Alloc t fuel s size = some (s, 0) := by
  have hsnd := blocks_snd _ _ _ _ hl
  have hloop := bestFitLoop_eq_foldl s.mem (roundRequest size) (roundRequest size + t.hdr)
    fuel s.list_head ⟨10000000, 0, 0⟩ l hl
  have spec := bestFit_foldl_spec s.mem (roundRequest size) (roundRequest size + t.hdr)
    l hsnd
  simp only at spec
  generalize l.foldl (fun st x => bestFitStep s.mem (roundRequest size)
    (roundRequest size + t.hdr) st x.1) ⟨10000000, 0, 0⟩ = r at hloop spec
  unfold Mem_Alloc
  simp only [hloop]
  rcases spec with ⟨h0, _, _⟩ | ⟨_, _, l1, b, l2, hlb, _, hc, _, _, _⟩
  · simp [h0]
  · have hbl : b ∈ l := by rw [hlb]; simp
    have := hno b hbl hc.1
    have := hc.2
    omega

/-- C11 on the fresh 32-bit arena (one free block of 4088 bytes) and a request
of 5000. -/
theorem Mem_Alloc_no_fit_witness :
    arena32.blocks 1 = some [(65536, ⟨0, 4088⟩)] ∧
    Mem_Alloc ilp32 1 arena32 5000 = some (arena32, 0) :=
  ⟨by decide, Mem_Alloc_no_fit ilp32 1 arena32 5000 _ (by decide : arena32.blocks 1 = some [(65536, ⟨0, 4088⟩)]) (by decide)⟩

/-- C12, evaluated at the failing inputs.  On the fresh 32-bit arena
`Mem_Alloc(0)` and `Mem_Alloc(-5)` (rounded to 0) return 65600 and split the
block; `Mem_Alloc(-8)` returns 65600 and leaves the head block busy with `next`
pointing at itself. -/
theorem nonpositive_request_succeeds :
    arena32.blocks 1 = some [(65536, ⟨0, 4088⟩)] ∧
    (Mem_Alloc ilp32 1 arena32 0).map (fun r => (r.2, r.1.blocks 2))
      = some (65600, some [(65536, ⟨65544, 1⟩), (65544, ⟨0, 4072⟩)]) ∧
    roundRequest (-5) = 0 ∧
    (Mem_Alloc ilp32 1 arena32 (-5)).map (fun r => (r.2, r.1.blocks 2))
      = some (65600, some [(65536, ⟨65544, 1⟩), (65544, ⟨0, 4072⟩)]) ∧
    (Mem_Alloc ilp32 1 arena32 (-8)).map (fun r => (r.2, r.1.mem 65536))
      = some (65600, ⟨65536, 4081⟩) := by
  decide

/-- C14, evaluated at the failing inputs.  In the 32-bit arena after
`Mem_Alloc(4056)` the free tail block at 69600 has payload 16, so its extent
ends at 69624; `Mem_Alloc(12)` writes the new header at 69620, which ends at
69628.  In the arena after `Mem_Alloc(16)`, `Mem_Alloc(16)` and `Mem_Free` of
the first pointer, the busy block at 65560 follows the free block at 65536;
`Mem_Alloc(12)` picks 65536 with leftover -4 and takes the split branch, so the
new header goes to 65556 and covers the first bytes of the header at 65560. -/
theorem split_header_outside_extent :
    tail16.blocks 2 = some [(65536, ⟨69600, 4057⟩), (69600, ⟨0, 16⟩)] ∧
    (Mem_Alloc ilp32 2 tail16 12).map (fun r => r.1.blocks 3)
      = some (some [(65536, ⟨69600, 4057⟩), (69600, ⟨69620, 13⟩), (69620, ⟨0, -12⟩)]) ∧
    (69600 : Int) + ilp32.hdr + (tail16.mem 69600).size_status < 69620 + ilp32.hdr ∧
    freedFirst.blocks 3
      = some [(65536, ⟨65560, 16⟩), (65560, ⟨65584, 17⟩), (65584, ⟨0, 4024⟩)] ∧
    (bestFitLoop freedFirst.mem (roundRequest 12) (roundRequest 12 + ilp32.hdr) 3
        freedFirst.list_head ⟨10000000, 0, 0⟩).map
        (fun r => (r.found, r.best_fit, r.cushion,
          decide (toSizeT ilp32 r.cushion ≥ ilp32.hdr + 4),
          r.best_fit + (roundRequest 12 + ilp32.hdr)))
      = some (1, 65536, -4, true, 65556) ∧
    ((65556 : Int) < 65560 ∧ (65560 : Int) < 65556 + ilp32.hdr) := by
  refine ⟨by decide, by decide, by decide, by decide!, by decide!, by decide⟩

/-- The flag `allocated_once` is 1 in every reachable state. -/
theorem Reachable_allocated_once (t : Target) (s : Heap) (hs : Reachable t s) :
    s.allocated_once = 1 := by
  induction hs with
  | init fd space_ptr sizeOfRegion s h =>
    unfold Mem_Init at h
    simp only [Heap.boot] at h
    split_ifs at h
    all_goals
      simp only [Prod.mk.injEq] at h
      first
        | (exfalso; omega)
        | (obtain ⟨rfl, _⟩ := h; rfl)
  | alloc fuel s s' size p _ h ih =>
    unfold Mem_Alloc at h
    simp only at h
    split at h
    · cases h
    · split at h
      · simp only [Option.some.injEq, Prod.mk.injEq] at h
        obtain ⟨rfl, _⟩ := h
        exact ih
      · simp only [Option.some.injEq, Prod.mk.injEq] at h
        obtain ⟨rfl, _⟩ := h
        exact ih
  | free fuel s s' ptr r _ h ih =>
    unfold Mem_Free at h
    split at h
    · simp only [Option.some.injEq, Prod.mk.injEq] at h
      obtain ⟨rfl, _⟩ := h
      exact ih
    · simp only at h
      split at h
      · simp only [Option.some.injEq, Prod.mk.injEq] at h
        obtain ⟨rfl, _⟩ := h
        exact ih
      · split at h
        · simp only [Option.some.injEq, Prod.mk.injEq] at h
          obtain ⟨rfl, _⟩ := h
          exact ih
        · split at h
          · cases h
          · simp only [Option.some.injEq, Prod.mk.injEq] at h
            obtain ⟨rfl, _⟩ := h
            exact ih

/-- C16: in every state reached after a successful `Mem_Init`, a call of
`Mem_Init` with any arguments and any results of `open` and `mmap` returns -1
and returns the state unchanged. -/
theorem Mem_Init_second_call (t : Target) (s : Heap) (hs : Reachable t s)
    (fd space_ptr sizeOfRegion : Int) :
    Mem_Init t fd space_ptr s sizeOfRegion = (s, -1) := by
  have h1 := Reachable_allocated_once t s hs
  unfold Mem_Init
  rw [if_pos (by omega)]

/-- C16 on the 32-bit arena after `Mem_Alloc(4)`, with a valid and an invalid
size. -/
theorem Mem_Init_second_call_witness :
    Reachable ilp32 alloc4 ∧
    Mem_Init ilp32 3 131072 alloc4 4096 = (alloc4, -1) ∧
    Mem_Init ilp32 3 131072 alloc4 (-1) = (alloc4, -1) :=
  have hr : Reachable ilp32 alloc4 :=
    Reachable.alloc 1 arena32 alloc4 4 65600 (Reachable.init 3 65536 4096 _ rfl) rfl
  ⟨hr, Mem_Init_second_call ilp32 alloc4 hr 3 131072 4096,
    Mem_Init_second_call ilp32 alloc4 hr 3 131072 (-1)⟩

/-- C17, evaluated at the failing input.  The 32-bit arena after
`Mem_Alloc(4056)` and `Mem_Alloc(12)` is reachable, and the block the second
call split off has `size_status` -12. -/
theorem negative_size_status_reachable :
    Reachable ilp32 tail16Split ∧
    tail16Split.blocks 3
      = some [(65536, ⟨69600, 4057⟩), (69600, ⟨69620, 13⟩), (69620, ⟨0, -12⟩)] ∧
    (tail16Split.mem 69620).size_status < 0 ∧
    payload (tail16Split.mem 69620) < 0 :=
  ⟨Reachable.alloc 2 tail16 tail16Split 12 69664
      (Reachable.alloc 1 arena32 tail16 4056 65600 (Reachable.init 3 65536 4096 _ rfl) rfl)
      rfl,
    by decide, by decide, by decide⟩

/-- C19, evaluated at the failing input.  On the 32-bit target `Mem_Init` with
16777216 bytes leaves one free block of `size_status` 16777208; for
`Mem_Alloc(4)` that block is free and above the request, yet the leftover
16777196 is not below the initial bound 10000000 of the search and `Mem_Alloc`
returns NULL. -/
theorem large_block_not_found :
    bigArena.blocks 1 = some [(65536, ⟨0, 16777208⟩)] ∧
    Candidate (roundRequest 4) (bigArena.mem 65536) ∧
    (bigArena.mem 65536).size_status - (roundRequest 4 + ilp32.hdr) = 16777196 ∧
    (Mem_Alloc ilp32 1 bigArena 4).map (fun r => (r.2, r.1.blocks 1))
      = some (0, some [(65536, ⟨0, 16777208⟩)]) := by
  decide

/-- C15: on a state that has not been initialised, with a positive size and
page size, a descriptor and a mapping that did not fail (and a mapping that is
not at address 0), `Mem_Init` returns 0 and the list is the one block at the
mapped address with `next = NULL` and `size_status = R - sizeof(block_header)`,
where `R` is the least multiple of the page size that is at least the size asked
for; the block tests free when page size and header size are multiples of 4. -/
theorem Mem_Init_first_call (t : Target) (hps : 0 < t.pagesize) (fd space_ptr : Int)
    (s : Heap) (sizeOfRegion : Int) (h0 : s.allocated_once = 0)
    (hn : 0 < sizeOfRegion) (hfd : fd ≠ -1) (hmap : space_ptr ≠ -1)
    (hnull : space_ptr ≠ 0) :
    ∃ R, t.pagesize ∣ R ∧ sizeOfRegion ≤ R ∧
      (∀ k, t.pagesize ∣ k → sizeOfRegion ≤ k → R ≤ k) ∧
      ∃ s', Mem_Init t fd space_ptr s sizeOfRegion = (s', 0) ∧
        s'.list_head = space_ptr ∧
        s'.blocks 1 = some [(space_ptr, ⟨0, R - t.hdr⟩)] ∧
        (t.pagesize % 4 = 0 → t.hdr % 4 = 0 → isFree (s'.mem space_ptr) = 1) := by
  have hdvd := pagesize_dvd_alloc_size t.pagesize sizeOfRegion
  have e1 : Int.tmod sizeOfRegion t.pagesize = sizeOfRegion % t.pagesize :=
    Int.tmod_eq_emod (le_of_lt hn) (le_of_lt hps)
  have hr0 := Int.emod_nonneg sizeOfRegion (ne_of_gt hps)
  have hr1 := Int.emod_lt_of_pos sizeOfRegion hps
  have e2 : Int.tmod (t.pagesize - sizeOfRegion % t.pagesize) t.pagesize
      = (t.pagesize - sizeOfRegion % t.pagesize) % t.pagesize :=
    Int.tmod_eq_emod (by omega) (le_of_lt hps)
  have hp0 := Int.emod_nonneg (t.pagesize - sizeOfRegion % t.pagesize) (ne_of_gt hps)
  have hp1 := Int.emod_lt_of_pos (t.pagesize - sizeOfRegion % t.pagesize) hps
  rw [e1, e2] at hdvd
  refine ⟨sizeOfRegion + (t.pagesize - sizeOfRegion % t.pagesize) % t.pagesize,
    hdvd, by omega, ?_, ?_⟩
  · intro k hk hnk
    by_contra hlt
    have hd : t.pagesize ∣ sizeOfRegion
        + (t.pagesize - sizeOfRegion % t.pagesize) % t.pagesize - k :=
      Int.dvd_sub hdvd hk
    have := Int.le_of_dvd (by omega) hd
    omega
  · refine ⟨⟨1, space_ptr, setSize (setNext s.mem space_ptr 0) space_ptr
      (sizeOfRegion + (t.pagesize - sizeOfRegion % t.pagesize) % t.pagesize - t.hdr)⟩,
      ?_, ?_, ?_, ?_⟩
    · unfold Mem_Init
      rw [if_neg (by omega), if_neg (by omega)]
      simp only
      rw [if_neg (fun h => hfd h.symm), if_neg (fun h => hmap h.symm), e1, e2]
    · rfl
    · simp [Heap.blocks, blocks, hnull, setSize, setNext]
    · intro h4p h4h
      have hm := Int.emod_eq_zero_of_dvd
        (Dvd.dvd.trans (Int.dvd_of_emod_eq_zero h4p) hdvd)
      have hfree : isFree ((setSize (setNext s.mem space_ptr 0) space_ptr
          (sizeOfRegion + (t.pagesize - sizeOfRegion % t.pagesize) % t.pagesize - t.hdr))
          space_ptr) ≠ 0 := by
        rw [isFree_ne_zero_iff, size_setSize]
        simp only [if_true]
        omega
      unfold isFree at hfree ⊢
      split
      · rfl
      · rename_i hne
        rw [if_neg hne] at hfree
        exact absurd rfl hfree

/-- C15 on the 32-bit target: a request of 5000 bytes is rounded to two pages. -/
theorem Mem_Init_first_call_witness :
    (0 : Int) < ilp32.pagesize ∧ Heap.boot.allocated_once = 0 ∧
    ∃ R, ilp32.pagesize ∣ R ∧ (5000 : Int) ≤ R ∧
      (∀ k, ilp32.pagesize ∣ k → (5000 : Int) ≤ k → R ≤ k) ∧
      ∃ s', Mem_Init ilp32 3 65536 Heap.boot 5000 = (s', 0) ∧
        s'.list_head = 65536 ∧
        s'.blocks 1 = some [(65536, ⟨0, R - ilp32.hdr⟩)] ∧
        (ilp32.pagesize % 4 = 0 → ilp32.hdr % 4 = 0 → isFree (s'.mem 65536) = 1) :=
  ⟨by decide, rfl, Mem_Init_first_call ilp32 (by decide) 3 65536 Heap.boot 5000 rfl
    (by decide) (by decide) (by decide) (by decide)⟩

/-- For a positive size the rounded request is the least multiple of 4 that is
at least the size. -/
theorem roundRequest_pos (size : Int) (hs : 0 < size) :
    roundRequest size % 4 = 0 ∧ size ≤ roundRequest size ∧ roundRequest size < size + 4 := by
  have e : Int.tmod size 4 = size % 4 := Int.tmod_eq_emod (le_of_lt hs) (by decide)
  unfold roundRequest
  rw [e]
  split <;> omega

/-- After the writes of a successful `Mem_Alloc` whose new header is not at the
chosen block itself, the chosen block holds the request plus one. -/
theorem allocWrites_best_fit (t : Target) (m : Memory) (rq wb : Int) (r : Search)
    (hwb : wb ≠ 0) :
    ((allocWrites t m rq wb r) r.best_fit).size_status = rq + 1 := by
  have hne : r.best_fit ≠ r.best_fit + wb := by omega
  unfold allocWrites
  simp only
  rw [size_setSize, if_pos rfl]
  split
  · rw [size_setNext]
    split
    · rw [size_setNext, size_setSize, if_neg hne, size_setSize, if_pos rfl]
    · rw [size_setNext, size_setSize, if_neg hne, size_setSize, if_pos rfl]
  · rw [size_setSize, if_pos rfl]

/-- C18: for a positive size the request `Mem_Alloc` uses is a multiple of 4, at
least the size, below every other such multiple, and the size itself when that
is a multiple of 4; when `Mem_Alloc` returns a non-NULL pointer, its search ran
with that request and the chosen block's `size_status` is that request plus
one. -/
theorem Mem_Alloc_rounding (t : Target) (hh : 0 < t.hdr) (fuel : Nat) (s : Heap)
    (size : Int) (hs : 0 < size) :
    roundRequest size % 4 = 0 ∧ size ≤ roundRequest size ∧
    (∀ k : Int, k % 4 = 0 → size ≤ k → roundRequest size ≤ k) ∧
    (size % 4 = 0 → roundRequest size = size) ∧
    (∀ s' p, Mem_Alloc t fuel s size = some (s', p) → p ≠ 0 →
      ∃ r, bestFitLoop s.mem (roundRequest size) (roundRequest size + t.hdr) fuel
            s.list_head ⟨10000000, 0, 0⟩ = some r ∧
        r.found ≠ 0 ∧ p = r.best_fit + t.hdr * t.hdr ∧
        (s'.mem r.best_fit).size_status = roundRequest size + 1) := by
  obtain ⟨h1, h2, h3⟩ := roundRequest_pos size hs
  refine ⟨h1, h2, fun k hk hsk => by omega, fun h4 => by omega, ?_⟩
  intro s' p h hp
  unfold Mem_Alloc at h
  simp only at h
  cases hb : bestFitLoop s.mem (roundRequest size) (roundRequest size + t.hdr) fuel
      s.list_head ⟨10000000, 0, 0⟩ with
  | none => rw [hb] at h; cases h
  | some r =>
    rw [hb] at h
    simp only at h
    refine ⟨r, rfl, ?_⟩
    split at h
    · rename_i hf
      simp only [Option.some.injEq, Prod.mk.injEq] at h
      obtain ⟨rfl, rfl⟩ := h
      exact ⟨hf, rfl, allocWrites_best_fit t s.mem _ _ r (by omega)⟩
    · simp only [Option.some.injEq, Prod.mk.injEq] at h
      exact absurd h.2.symm hp

/-- C18 on the fresh 32-bit arena with a request of 5 bytes, rounded to 8. -/
theorem Mem_Alloc_rounding_witness :
    (0 : Int) < ilp32.hdr ∧ (0 : Int) < 5 ∧ roundRequest 5 = 8 ∧
    roundRequest 5 % 4 = 0 ∧ (5 : Int) ≤ roundRequest 5 ∧
    (∀ k : Int, k % 4 = 0 → 5 ≤ k → roundRequest 5 ≤ k) ∧
    ((5 : Int) % 4 = 0 → roundRequest 5 = 5) ∧
    (∀ s' p, Mem_Alloc ilp32 1 arena32 5 = some (s', p) → p ≠ 0 →
      ∃ r, bestFitLoop arena32.mem (roundRequest 5) (roundRequest 5 + ilp32.hdr) 1
            arena32.list_head ⟨10000000, 0, 0⟩ = some r ∧
        r.found ≠ 0 ∧ p = r.best_fit + ilp32.hdr * ilp32.hdr ∧
        (s'.mem r.best_fit).size_status = roundRequest 5 + 1) :=
  ⟨by decide, by decide, by decide,
    Mem_Alloc_rounding ilp32 (by decide) 1 arena32 5 (by decide)⟩

theorem isFree_eq_zero_or_one (b : block_header) : isFree b = 0 ∨ isFree b = 1 := by
  unfold isFree; split <;> simp

theorem totalSize_eq_busy_add_free (t : Target) (l : List (Int × block_header)) :
    busyTotal t l + freeTotal t l = totalSize t l := by
  induction l with
  | nil => simp [busyTotal, freeTotal, totalSize]
  | cons x l ih =>
    unfold busyTotal freeTotal totalSize at ih ⊢
    by_cases hf : isFree x.2 = 0
    · have e1 : (x :: l).filter (fun x => isFree x.2 = 0)
          = x :: l.filter (fun x => isFree x.2 = 0) := by simp [List.filter_cons, hf]
      have e2 : (x :: l).filter (fun x => isFree x.2 ≠ 0)
          = l.filter (fun x => isFree x.2 ≠ 0) := by simp [List.filter_cons, hf]
      rw [e1, e2]
      simp only [List.map_cons, List.sum_cons]
      omega
    · have e1 : (x :: l).filter (fun x => isFree x.2 = 0)
          = l.filter (fun x => isFree x.2 = 0) := by simp [List.filter_cons, hf]
      have e2 : (x :: l).filter (fun x => isFree x.2 ≠ 0)
          = x :: l.filter (fun x => isFree x.2 ≠ 0) := by simp [List.filter_cons, hf]
      rw [e1, e2]
      simp only [List.map_cons, List.sum_cons]
      omega

/-- What the loop of `Mem_Dump` adds to its totals and its table on a list whose
`size_status` words are multiples of 4 or one more. -/
theorem dumpLoop_spec (t : Target) (m : Memory) :
    ∀ (fuel : Nat) (p : Int) (acc : DumpTotals) (out : List DumpLine)
      (l : List (Int × block_header)),
      blocks m fuel p = some l →
      (∀ x ∈ l, x.2.size_status % 4 = 0 ∨ x.2.size_status % 4 = 1) →
      ∃ lines tot, dumpLoop t m fuel p acc out = some (tot, out ++ lines) ∧
        lines.map (fun d => d.busy) = l.map (fun x => decide (isFree x.2 = 0)) ∧
        lines.map (fun d => d.t_Begin) = l.map Prod.fst ∧
        lines.map (fun d => d.Size) = l.map (fun x => payload x.2) ∧
        lines.map (fun d => d.t_Size) = l.map (fun x => payload x.2 + t.hdr) ∧
        tot.busy_size = acc.busy_size + busyTotal t l ∧
        tot.free_size = acc.free_size + freeTotal t l := by
  intro fuel
  induction fuel with
  | zero =>
    intro p acc out l h _
    unfold blocks at h
    split at h
    · rename_i hp
      cases h
      exact ⟨[], acc, by simp [dumpLoop, hp], rfl, rfl, rfl, rfl,
        by simp [busyTotal], by simp [freeTotal]⟩
    · cases h
  | succ n ih =>
    intro p acc out l h htag
    unfold blocks at h
    split at h
    · rename_i hp
      cases h
      exact ⟨[], acc, by simp [dumpLoop, hp], rfl, rfl, rfl, rfl,
        by simp [busyTotal], by simp [freeTotal]⟩
    · rename_i hp
      cases hb : blocks m n (m p).next with
      | none => rw [hb] at h; cases h
      | some l0 =>
        rw [hb] at h
        simp only [Option.map_some', Option.some.injEq] at h
        subst h
        have htag0 : ∀ x ∈ l0, x.2.size_status % 4 = 0 ∨ x.2.size_status % 4 = 1 :=
          fun x hx => htag x (List.mem_cons_of_mem _ hx)
        have hhead := htag (p, m p) (List.mem_cons_self _ _)
        simp only at hhead
        unfold dumpLoop
        rw [if_neg hp]
        simp only
        rcases hhead with h4 | h4
        · have hfree : isFree (m p) ≠ 0 := (isFree_ne_zero_iff _).mpr h4
          have hpay : payload (m p) = (m p).size_status := by
            unfold payload; rw [if_pos hfree]
          rw [if_neg (by omega)]
          obtain ⟨lines, tot, hrun, hb1, hb2, hb3, hb4, hb5, hb6⟩ :=
            ih (m p).next
              { acc with free_size := acc.free_size + ((m p).size_status + t.hdr),
                         total_size := acc.total_size + ((m p).size_status + t.hdr),
                         counter := acc.counter + 1 }
              (out ++ [⟨acc.counter, false, p + t.hdr,
                p + t.hdr + (m p).size_status - 1, (m p).size_status,
                (m p).size_status + t.hdr, p⟩]) l0 hb htag0
          refine ⟨⟨acc.counter, false, p + t.hdr,
                p + t.hdr + (m p).size_status - 1, (m p).size_status,
                (m p).size_status + t.hdr, p⟩ :: lines, tot, ?_, ?_, ?_, ?_, ?_, ?_, ?_⟩
          · rw [hrun]; simp
          · simp [hb1, hfree]
          · simp [hb2]
          · simp [hb3, hpay]
          · simp [hb4, hpay]
          · rw [hb5]; simp [busyTotal, List.filter_cons, hfree]
          · rw [hb6]; simp [freeTotal, List.filter_cons, hfree, hpay]; omega
        · have hbusy : ¬ isFree (m p) ≠ 0 := fun hf => by
            have := (isFree_ne_zero_iff _).mp hf; omega
          have hbusy0 : isFree (m p) = 0 := by
            rcases isFree_eq_zero_or_one (m p) with h | h
            · exact h
            · exact absurd (by rw [h]; decide) hbusy
          have hpay : payload (m p) = (m p).size_status - 1 := by
            unfold payload; rw [if_neg hbusy]
          rw [if_pos (by omega)]
          obtain ⟨lines, tot, hrun, hb1, hb2, hb3, hb4, hb5, hb6⟩ :=
            ih (m p).next
              { acc with busy_size := acc.busy_size + ((m p).size_status - 1 + t.hdr),
                         total_size := acc.total_size + ((m p).size_status - 1 + t.hdr),
                         counter := acc.counter + 1 }
              (out ++ [⟨acc.counter, true, p + t.hdr,
                p + t.hdr + ((m p).size_status - 1) - 1, (m p).size_status - 1,
                (m p).size_status - 1 + t.hdr, p⟩]) l0 hb htag0
          refine ⟨⟨acc.counter, true, p + t.hdr,
                p + t.hdr + ((m p).size_status - 1) - 1, (m p).size_status - 1,
                (m p).size_status - 1 + t.hdr, p⟩ :: lines, tot, ?_, ?_, ?_, ?_, ?_, ?_, ?_⟩
          · rw [hrun]; simp
          · simp [hb1, hbusy0]
          · simp [hb2]
          · simp [hb3, hpay]
          · simp [hb4, hpay]
          · rw [hb5]; simp [busyTotal, List.filter_cons, hbusy0, hpay]; omega
          · rw [hb6]; simp [freeTotal, List.filter_cons, hbusy0]

/-- C20: on a list that is walked to its end and whose `size_status` words are
multiples of 4 or one more, `Mem_Dump` returns, leaves the state as it was,
prints one line per block in list order with the status `isFree` gives and the
block's payload and total size, and its totals are the sums of payload plus
header size over the allocated and over the free blocks; together they are the
total size of all blocks. -/
theorem Mem_Dump_totals (t : Target) (fuel : Nat) (s : Heap)
    (l : List (Int × block_header)) (hl : s.blocks fuel = some l)
    (htag : ∀ x ∈ l, x.2.size_status % 4 = 0 ∨ x.2.size_status % 4 = 1) :
    ∃ lines tot, Mem_Dump t fuel s = some (s, lines, tot) ∧
      lines.map (fun d => d.busy) = l.map (fun x => decide (isFree x.2 = 0)) ∧
      lines.map (fun d => d.t_Begin) = l.map Prod.fst ∧
      lines.map (fun d => d.Size) = l.map (fun x => payload x.2) ∧
      lines.map (fun d => d.t_Size) = l.map (fun x => payload x.2 + t.hdr) ∧
      tot.busy_size = busyTotal t l ∧ tot.free_size = freeTotal t l ∧
      tot.busy_size + tot.free_size = totalSize t l := by
  obtain ⟨lines, tot, hrun, h1, h2, h3, h4, h5, h6⟩ :=
    dumpLoop_spec t s.mem fuel s.list_head ⟨0, 0, 0, 1⟩ [] l hl htag
  refine ⟨lines, tot, ?_, h1, h2, h3, h4, by simpa using h5, by simpa using h6, ?_⟩
  · unfold Mem_Dump
    rw [hrun]
    simp
  · rw [h5, h6, ← totalSize_eq_busy_add_free]
    simp

/-- C20 on the 32-bit arena after three calls `Mem_Alloc(16)`: three busy
blocks and the free rest. -/
theorem Mem_Dump_totals_witness :
    threeBusy.blocks 4 = some [(65536, ⟨65560, 17⟩), (65560, ⟨65584, 17⟩),
      (65584, ⟨65608, 17⟩), (65608, ⟨0, 3992⟩)] ∧
    ∃ lines tot, Mem_Dump ilp32 4 threeBusy = some (threeBusy, lines, tot) ∧
      lines.map (fun d => d.busy)
        = [((65536 : Int), (⟨65560, 17⟩ : block_header)), (65560, ⟨65584, 17⟩),
            (65584, ⟨65608, 17⟩), (65608, ⟨0, 3992⟩)].map
          (fun x => decide (isFree x.2 = 0)) ∧
      lines.map (fun d => d.t_Begin)
        = [((65536 : Int), (⟨65560, 17⟩ : block_header)), (65560, ⟨65584, 17⟩),
            (65584, ⟨65608, 17⟩), (65608, ⟨0, 3992⟩)].map Prod.fst ∧
      lines.map (fun d => d.Size)
        = [((65536 : Int), (⟨65560, 17⟩ : block_header)), (65560, ⟨65584, 17⟩),
            (65584, ⟨65608, 17⟩), (65608, ⟨0, 3992⟩)].map (fun x => payload x.2) ∧
      lines.map (fun d => d.t_Size)
        = [((65536 : Int), (⟨65560, 17⟩ : block_header)), (65560, ⟨65584, 17⟩),
            (65584, ⟨65608, 17⟩), (65608, ⟨0, 3992⟩)].map
          (fun x => payload x.2 + ilp32.hdr) ∧
      tot.busy_size = busyTotal ilp32 [(65536, ⟨65560, 17⟩), (65560, ⟨65584, 17⟩),
        (65584, ⟨65608, 17⟩), (65608, ⟨0, 3992⟩)] ∧
      tot.free_size = freeTotal ilp32 [(65536, ⟨65560, 17⟩), (65560, ⟨65584, 17⟩),
        (65584, ⟨65608, 17⟩), (65608, ⟨0, 3992⟩)] ∧
      tot.busy_size + tot.free_size = totalSize ilp32 [(65536, ⟨65560, 17⟩),
        (65560, ⟨65584, 17⟩), (65584, ⟨65608, 17⟩), (65608, ⟨0, 3992⟩)] :=
  ⟨by decide!, Mem_Dump_totals ilp32 4 threeBusy _ (by decide!) (by decide)⟩

/-! ## Paths through memory -/

theorem Seg_of_blocks (m : Memory) :
    ∀ (fuel : Nat) (p : Int) (l : List (Int × block_header)),
      blocks m fuel p = some l → Seg m p l 0 ∧ l.length ≤ fuel := by
  intro fuel
  induction fuel with
  | zero =>
    intro p l h
    unfold blocks at h
    split at h
    · rename_i hp; cases h; exact ⟨hp, le_refl _⟩
    · cases h
  | succ n ih =>
    intro p l h
    unfold blocks at h
    split at h
    · rename_i hp; cases h; exact ⟨hp, Nat.zero_le _⟩
    · rename_i hp
      cases hb : blocks m n (m p).next with
      | none => rw [hb] at h; cases h
      | some l0 =>
        rw [hb] at h
        simp only [Option.map_some', Option.some.injEq] at h
        subst h
        obtain ⟨h1, h2⟩ := ih _ _ hb
        exact ⟨⟨hp, rfl, rfl, h1⟩, by simp only [List.length_cons]; omega⟩

theorem blocks_of_Seg (m : Memory) :
    ∀ (l : List (Int × block_header)) (fuel : Nat) (p : Int),
      Seg m p l 0 → l.length ≤ fuel → blocks m fuel p = some l := by
  intro l
  induction l with
  | nil =>
    intro fuel p h _
    have hp : p = 0 := h
    cases fuel <;> simp [blocks, hp]
  | cons x l ih =>
    intro fuel p h hlen
    obtain ⟨hp, h1, h2, h3⟩ := h
    cases fuel with
    | zero => simp at hlen
    | succ n =>
      unfold blocks
      rw [if_neg hp]
      have hlen0 : l.length ≤ n := by simp only [List.length_cons] at hlen; omega
      rw [h2] at h3
      rw [ih n _ h3 hlen0]
      simp only [Option.map_some', Option.some.injEq, List.cons.injEq, and_true]
      exact Prod.ext h1.symm h2.symm

theorem Seg_append (m : Memory) :
    ∀ (l1 l2 : List (Int × block_header)) (p q : Int),
      Seg m p (l1 ++ l2) q ↔ ∃ r, Seg m p l1 r ∧ Seg m r l2 q := by
  intro l1
  induction l1 with
  | nil =>
    intro l2 p q
    constructor
    · intro h; exact ⟨p, rfl, h⟩
    · rintro ⟨r, h1, h2⟩
      have : p = r := h1
      subst this; exact h2
  | cons x l1 ih =>
    intro l2 p q
    constructor
    · rintro ⟨hp, h1, h2, h3⟩
      obtain ⟨r, h4, h5⟩ := (ih l2 _ q).mp h3
      exact ⟨r, ⟨hp, h1, h2, h4⟩, h5⟩
    · rintro ⟨r, ⟨hp, h1, h2, h4⟩, h5⟩
      exact ⟨hp, h1, h2, (ih l2 _ q).mpr ⟨r, h4, h5⟩⟩

theorem Seg_congr (m m' : Memory) :
    ∀ (l : List (Int × block_header)) (p q : Int),
      (∀ x ∈ l, m' x.1 = m x.1) → Seg m p l q → Seg m' p l q := by
  intro l
  induction l with
  | nil => intro p q _ h; exact h
  | cons x l ih =>
    intro p q hagree h
    obtain ⟨hp, h1, h2, h3⟩ := h
    refine ⟨hp, h1, ?_, ih _ _ (fun y hy => hagree y (List.mem_cons_of_mem _ hy)) h3⟩
    rw [h2, ← h1]
    exact (hagree x (List.mem_cons_self _ _)).symm

theorem Seg_fst_ne_zero (m : Memory) :
    ∀ (l : List (Int × block_header)) (p q : Int),
      Seg m p l q → ∀ x ∈ l, x.1 ≠ 0 := by
  intro l
  induction l with
  | nil => intro p q _ x hx; cases hx
  | cons y l ih =>
    intro p q h x hx
    obtain ⟨hp, h1, _, h3⟩ := h
    rcases List.mem_cons.mp hx with rfl | hx
    · rw [h1]; exact hp
    · exact ih _ _ h3 x hx

theorem Seg_snd (m : Memory) :
    ∀ (l : List (Int × block_header)) (p q : Int),
      Seg m p l q → ∀ x ∈ l, x.2 = m x.1 := by
  intro l
  induction l with
  | nil => intro p q _ x hx; cases hx
  | cons y l ih =>
    intro p q h x hx
    obtain ⟨_, h1, h2, h3⟩ := h
    rcases List.mem_cons.mp hx with rfl | hx
    · rw [h1]; exact h2
    · exact ih _ _ h3 x hx

/-- The `next` field of a node of a path is the address of a node of the path or
the end of the path. -/
theorem Seg_next_mem (m : Memory) :
    ∀ (l : List (Int × block_header)) (p q : Int),
      Seg m p l q → ∀ x ∈ l, x.2.next = q ∨ x.2.next ∈ l.map Prod.fst := by
  intro l
  induction l with
  | nil => intro p q _ x hx; cases hx
  | cons y l ih =>
    intro p q h x hx
    obtain ⟨_, _, _, h3⟩ := h
    rcases List.mem_cons.mp hx with rfl | hx
    · cases l with
      | nil => left; exact h3
      | cons z l =>
        right
        obtain ⟨_, hz, _, _⟩ := h3
        simp [hz]
    · rcases ih _ _ h3 x hx with h | h
      · left; exact h
      · right; exact List.mem_cons_of_mem _ h

theorem Seg_det (m : Memory) :
    ∀ (l l' : List (Int × block_header)) (p : Int),
      Seg m p l 0 → Seg m p l' 0 → l = l' := by
  intro l
  induction l with
  | nil =>
    intro l' p h h'
    have hp : p = 0 := h
    cases l' with
    | nil => rfl
    | cons y l' => exact absurd hp h'.1
  | cons x l ih =>
    intro l' p h h'
    obtain ⟨hp, h1, h2, h3⟩ := h
    cases l' with
    | nil => exact absurd h' hp
    | cons y l' =>
      obtain ⟨_, h1', h2', h3'⟩ := h'
      have hxy : x = y := Prod.ext (h1.trans h1'.symm) (h2.trans h2'.symm)
      subst hxy
      rw [ih l' _ h3 h3']

theorem Seg_nodup (m : Memory) :
    ∀ (l : List (Int × block_header)) (p : Int),
      Seg m p l 0 → (l.map Prod.fst).Nodup := by
  intro l
  induction l with
  | nil => intro p _; simp
  | cons x l ih =>
    intro p h
    have hfull := h
    obtain ⟨hp, h1, h2, h3⟩ := h
    simp only [List.map_cons, List.nodup_cons]
    refine ⟨?_, ih _ h3⟩
    intro hmem
    obtain ⟨y, hy, hyx⟩ := List.mem_map.mp hmem
    obtain ⟨l1, l2, rfl⟩ := List.append_of_mem hy
    obtain ⟨r, _, hr2⟩ := (Seg_append m l1 (y :: l2) _ 0).mp h3
    have hr : r = p := by
      obtain ⟨_, hy1, _, _⟩ := hr2
      rw [← hy1, hyx, h1]
    rw [hr] at hr2
    have := Seg_det m _ _ p hfull hr2
    have hlen := congrArg List.length this
    simp at hlen
    omega

/-! ## Freeing a block of a list -/

theorem setSize_apply (m : Memory) (p v a : Int) :
    (setSize m p v) a = if a = p then ⟨(m p).next, v⟩ else m a := by
  unfold setSize
  by_cases h : a = p
  · subst h; simp
  · simp [Function.update_noteq h, h]

theorem setNext_apply (m : Memory) (p q a : Int) :
    (setNext m p q) a = if a = p then ⟨q, (m p).size_status⟩ else m a := by
  unfold setNext
  by_cases h : a = p
  · subst h; simp
  · simp [Function.update_noteq h, h]

theorem prevLoop_null (t : Target) (free : Int) (k : Nat) (m : Memory) :
    prevLoop t free k 0 m = some m := by
  cases k <;> simp [prevLoop]

theorem prevLoop_succ (t : Target) (free : Int) (k : Nat) (itr : Int) (m : Memory) :
    prevLoop t free (k + 1) itr m
      = if itr = 0 then some m
        else if (m itr).next = free ∧ isFree (m itr) ≠ 0 then
          some (setNext (setSize m itr ((m itr).size_status + ((m free).size_status + t.hdr)))
            itr ((setSize m itr ((m itr).size_status + ((m free).size_status + t.hdr)))
              free).next)
        else prevLoop t free k (m itr).next m := by
  rfl

/-- The predecessor loop passes over nodes that are not a free predecessor of
the target. -/
theorem prevLoop_skip (t : Target) (free : Int) (m : Memory) :
    ∀ (l : List (Int × block_header)) (k : Nat) (p q : Int),
      Seg m p l q → (∀ x ∈ l, ¬ (x.2.next = free ∧ isFree x.2 ≠ 0)) →
      prevLoop t free (l.length + k) p m = prevLoop t free k q m := by
  intro l
  induction l with
  | nil =>
    intro k p q h _
    have hp : p = q := h
    simp [hp]
  | cons x l ih =>
    intro k p q h hno
    obtain ⟨hp, h1, h2, h3⟩ := h
    have hx := hno x (List.mem_cons_self _ _)
    rw [h2] at hx h3
    have e : (x :: l).length + k = (l.length + k) + 1 := by
      simp only [List.length_cons]; omega
    rw [e, prevLoop_succ, if_neg hp, if_neg hx]
    exact ih k _ q h3 (fun y hy => hno y (List.mem_cons_of_mem _ hy))

/-- The writes of `Mem_Free` before the predecessor loop change the target's
header as successor coalescing asks and nothing else. -/
theorem freeWrites_eq (t : Target) (m : Memory) (ta : Int)
    (post : List (Int × block_header)) (hseg : Seg m (m ta).next post 0)
    (hnot : ta ∉ post.map Prod.fst) (hbusy : ¬ isFree (m ta) ≠ 0) :
    freeWrites t m ta (m ta).next
      = Function.update m ta (absorbSuccessor t (m ta) post).1 := by
  have hpay : payload (m ta) = (m ta).size_status - 1 := by
    unfold payload; rw [if_neg hbusy]
  cases post with
  | nil =>
    have hn : (m ta).next = 0 := hseg
    unfold freeWrites absorbSuccessor
    simp only [hn, ne_eq, not_true_eq_false, if_false]
    funext a
    rw [setSize_apply]
    by_cases h : a = ta
    · subst h; simp [hpay, hn]
    · simp [h, Function.update_noteq h]
  | cons S post =>
    obtain ⟨hne, hS1, hS2, _⟩ := hseg
    have hSta : (m ta).next ≠ ta := by
      intro h
      apply hnot
      simp only [List.map_cons, List.mem_cons]
      left; rw [hS1]; exact h.symm
    have hm0 : (setSize m ta ((m ta).size_status - 1)) (m ta).next = S.2 := by
      rw [setSize_apply, if_neg hSta]; exact hS2.symm
    unfold freeWrites absorbSuccessor
    simp only
    rw [if_pos (fun h => hne h.symm), hm0]
    by_cases hf : isFree S.2 ≠ 0
    · have hpS : payload S.2 = S.2.size_status := by
        unfold payload; rw [if_pos hf]
      rw [if_pos hf, if_pos hf]
      funext a
      rw [setNext_apply]
      by_cases h : a = ta
      · subst h
        rw [if_pos rfl, size_setSize, if_pos rfl, setSize_apply, if_neg hSta, hm0,
          size_setSize, if_pos rfl, Function.update_same, hpay, hpS]
        congr 1
        omega
      · rw [if_neg h, setSize_apply, if_neg h, setSize_apply, if_neg h,
          Function.update_noteq h]
    · rw [if_neg hf, if_neg hf]
      funext a
      rw [setSize_apply]
      by_cases h : a = ta
      · subst h; simp [hpay]
      · simp [h, Function.update_noteq h]

/-- The nodes after the target once the successor has been dealt with start at
the target's new `next`. -/
theorem absorbSuccessor_Seg (t : Target) (m : Memory) (T : block_header)
    (post : List (Int × block_header)) (hseg : Seg m T.next post 0) :
    Seg m (absorbSuccessor t T post).1.next (absorbSuccessor t T post).2 0 ∧
      (∀ x ∈ (absorbSuccessor t T post).2, x ∈ post) ∧
      (absorbSuccessor t T post).2.length ≤ post.length := by
  cases post with
  | nil => exact ⟨hseg, fun x hx => hx, le_refl _⟩
  | cons S post =>
    have e : absorbSuccessor t T (S :: post)
        = if isFree S.2 ≠ 0 then (⟨S.2.next, payload T + t.hdr + payload S.2⟩, post)
          else (⟨T.next, payload T⟩, S :: post) := rfl
    by_cases hf : isFree S.2 ≠ 0
    · rw [e, if_pos hf]
      obtain ⟨_, _, _, h3⟩ := hseg
      exact ⟨h3, fun x hx => List.mem_cons_of_mem _ hx, by simp⟩
    · rw [e, if_neg hf]
      exact ⟨hseg, fun x hx => hx, le_refl _⟩

theorem Seg_start_mem (m : Memory) (l : List (Int × block_header)) (p q : Int)
    (h : Seg m p l q) : p = q ∨ p ∈ l.map Prod.fst := by
  cases l with
  | nil => left; exact h
  | cons x l =>
    right
    obtain ⟨_, h1, _, _⟩ := h
    simp [h1]

theorem absorbIntoPredecessor_nil (t : Target) (ta : Int) (T : block_header)
    (rest : List (Int × block_header)) :
    absorbIntoPredecessor t [] ta T rest = (ta, T) :: rest := by
  rfl

theorem absorbIntoPredecessor_concat (t : Target) (L : List (Int × block_header))
    (P : Int × block_header) (ta : Int) (T : block_header)
    (rest : List (Int × block_header)) :
    absorbIntoPredecessor t (L ++ [P]) ta T rest
      = if isFree P.2 ≠ 0 then
          L ++ (P.1, ⟨T.next, payload P.2 + t.hdr + T.size_status⟩) :: rest
        else (L ++ [P]) ++ (ta, T) :: rest := by
  unfold absorbIntoPredecessor
  simp

/-- C13: let the list read from `list_head` be `pre ++ (ta, T) :: post`, with
the block at `ta` allocated, and let `ptr` be the pointer `Mem_Free` maps to
`ta`.  Then `Mem_Free(ptr)` returns 0, with the fuel that walks the list, and
the list afterwards is the one the specification describes: the target has
absorbed a free successor (payload plus header size plus the successor's
payload, `next` the successor's `next`), and a free predecessor has absorbed the
target with the same arithmetic and splice. -/
theorem Mem_Free_coalesces (t : Target) (fuel : Nat) (s : Heap)
    (pre post : List (Int × block_header)) (ta : Int) (T : block_header)
    (hl : s.blocks fuel = some (pre ++ (ta, T) :: post))
    (hbusy : isFree T = 0) (hptr : ta + 8 * t.hdr ≠ 0) :
    ∃ s', Mem_Free t fuel s (ta + 8 * t.hdr) = some (s', 0) ∧
      s'.list_head = s.list_head ∧
      s'.blocks fuel = some (coalesced t pre ta T post) := by
  obtain ⟨hseg, hlen⟩ := Seg_of_blocks _ _ _ _ hl
  have hnodup := Seg_nodup _ _ _ hseg
  obtain ⟨r, hpre, hrest⟩ := (Seg_append _ pre ((ta, T) :: post) _ 0).mp hseg
  obtain ⟨hta0, hr, hT, hpost⟩ := hrest
  simp only at hr hT hpost
  subst hr
  subst hT
  rw [List.map_append, List.map_cons, List.nodup_append] at hnodup
  obtain ⟨hpre_nodup, hcons_nodup, hdisj⟩ := hnodup
  rw [List.nodup_cons] at hcons_nodup
  have hta_post : ta ∉ post.map Prod.fst := hcons_nodup.1
  have hta_pre : ta ∉ pre.map Prod.fst := fun h => hdisj h (List.mem_cons_self _ _)
  have hpre_post : ∀ a ∈ pre.map Prod.fst, a ∉ post.map Prod.fst :=
    fun a ha hb => hdisj ha (List.mem_cons_of_mem _ hb)
  have hb : ¬ isFree (s.mem ta) ≠ 0 := fun h => h hbusy
  have hm1 := freeWrites_eq t s.mem ta post hpost hta_post hb
  obtain ⟨hrest_seg, hrest_sub, hrest_len⟩ :=
    absorbSuccessor_Seg t s.mem (s.mem ta) post hpost
  have hrest_fst : ∀ a ∈ (absorbSuccessor t (s.mem ta) post).2.map Prod.fst,
      a ∈ post.map Prod.fst := by
    intro a ha
    obtain ⟨x, hx, rfl⟩ := List.mem_map.mp ha
    exact List.mem_map.mpr ⟨x, hrest_sub x hx, rfl⟩
  have hlen' : pre.length + 1 + post.length ≤ fuel := by
    simp only [List.length_append, List.length_cons] at hlen; omega
  have hfree : ta + 8 * t.hdr - 8 * t.hdr = ta := by ring
  -- the memory after the first writes, and the paths through it
  have hm1_ta : (Function.update s.mem ta (absorbSuccessor t (s.mem ta) post).1) ta
      = (absorbSuccessor t (s.mem ta) post).1 := Function.update_same _ _ _
  have hm1_ne : ∀ a, a ≠ ta →
      (Function.update s.mem ta (absorbSuccessor t (s.mem ta) post).1) a = s.mem a :=
    fun a ha => Function.update_noteq ha _ _
  have hseg_rest1 : Seg (Function.update s.mem ta (absorbSuccessor t (s.mem ta) post).1)
      (absorbSuccessor t (s.mem ta) post).1.next (absorbSuccessor t (s.mem ta) post).2 0 := by
    apply Seg_congr s.mem _ _ _ _ _ hrest_seg
    intro x hx
    apply hm1_ne
    intro h
    exact hta_post (hrest_fst _ (List.mem_map.mpr ⟨x, hx, h⟩))
  have hseg_pre1 : Seg (Function.update s.mem ta (absorbSuccessor t (s.mem ta) post).1)
      s.list_head pre ta := by
    apply Seg_congr s.mem _ _ _ _ _ hpre
    intro x hx
    apply hm1_ne
    intro h
    exact hta_pre (List.mem_map.mpr ⟨x, hx, h⟩)
  have hseg_T1 : Seg (Function.update s.mem ta (absorbSuccessor t (s.mem ta) post).1) ta
      ((ta, (absorbSuccessor t (s.mem ta) post).1) :: (absorbSuccessor t (s.mem ta) post).2)
      0 := ⟨hta0, rfl, hm1_ta.symm, hseg_rest1⟩
  unfold Mem_Free
  rw [if_neg (fun h => hptr h.symm)]
  simp only [hfree]
  rw [if_neg hb, hm1]
  unfold coalesced
  generalize hT' : (absorbSuccessor t (s.mem ta) post).1 = T' at *
  generalize hR : (absorbSuccessor t (s.mem ta) post).2 = rest at *
  rcases List.eq_nil_or_concat pre with rfl | ⟨L, P, hLP⟩
  · have hhead : s.list_head = ta := hpre
    rw [if_pos hhead, absorbIntoPredecessor_nil]
    refine ⟨_, rfl, rfl, ?_⟩
    apply blocks_of_Seg
    · show Seg (Function.update s.mem ta T') s.list_head ((ta, T') :: rest) 0
      rw [hhead]; exact hseg_T1
    · simp only [List.length_cons]
      simp only [List.length_nil] at hlen'
      omega
  · rw [List.concat_eq_append] at hLP
    subst hLP
    obtain ⟨pa, hL1, hP1⟩ := (Seg_append _ L [P] _ ta).mp hseg_pre1
    obtain ⟨hpa0, hPa, hPm1, hPnext⟩ := hP1
    have hPnext' : P.2.next = ta := hPnext
    subst hPa
    have hP_pre : P.1 ∈ (L ++ [P]).map Prod.fst := by simp
    have hPta : P.1 ≠ ta := fun h => hta_pre (h ▸ hP_pre)
    have hhead_mem : s.list_head ∈ (L ++ [P]).map Prod.fst := by
      rcases Seg_start_mem _ _ _ _ hseg_pre1 with h | h
      · exact absurd h (fun h' => hta_pre (h' ▸ (by
          rcases Seg_start_mem _ _ _ _ hL1 with h1 | h1
          · rw [h1]; exact hP_pre
          · rw [List.map_append]; exact List.mem_append_left _ h1)))
      · exact h
    have hhead : ¬ s.list_head = ta := fun h => hta_pre (h ▸ hhead_mem)
    rw [if_neg hhead, absorbIntoPredecessor_concat]
    have hL_next : ∀ x ∈ L, ¬ (x.2.next = ta ∧ isFree x.2 ≠ 0) := by
      intro x hx hc
      rcases Seg_next_mem _ _ _ _ hL1 x hx with h | h
      · exact hPta (h.symm.trans hc.1)
      · apply hta_pre
        rw [← hc.1, List.map_append]
        exact List.mem_append_left _ h
    simp only [List.length_append, List.length_cons, List.length_nil] at hlen'
    by_cases hPf : isFree P.2 ≠ 0
    · rw [if_pos hPf]
      have hfuel : fuel = L.length + ((fuel - L.length - 1) + 1) := by omega
      have hcond : (Function.update s.mem ta T' P.1).next = ta ∧
          isFree (Function.update s.mem ta T' P.1) ≠ 0 := by
        rw [← hPm1]; exact ⟨hPnext', hPf⟩
      have hrun : prevLoop t ta fuel s.list_head (Function.update s.mem ta T')
          = some (Function.update (Function.update s.mem ta T') P.1
              ⟨T'.next, payload P.2 + t.hdr + T'.size_status⟩) := by
        rw [hfuel, prevLoop_skip t ta _ L _ _ _ hL1 hL_next, prevLoop_succ,
          if_neg hpa0, if_pos hcond]
        congr 1
        funext a
        have hpP : payload P.2 = P.2.size_status := by
          unfold payload; rw [if_pos hPf]
        rw [setNext_apply]
        by_cases h : a = P.1
        · subst h
          rw [if_pos rfl, size_setSize, if_pos rfl, setSize_apply, if_neg (Ne.symm hPta),
            Function.update_same, ← hPm1, Function.update_same, hpP]
          congr 1
          omega
        · rw [if_neg h, setSize_apply, if_neg h, Function.update_noteq h]
      rw [hrun]
      refine ⟨_, rfl, rfl, ?_⟩
      apply blocks_of_Seg
      · show Seg (Function.update (Function.update s.mem ta T') P.1
            ⟨T'.next, payload P.2 + t.hdr + T'.size_status⟩) s.list_head
            (L ++ (P.1, ⟨T'.next, payload P.2 + t.hdr + T'.size_status⟩) :: rest) 0
        rw [Seg_append]
        refine ⟨P.1, ?_, hpa0, rfl, by simp, ?_⟩
        · apply Seg_congr _ _ _ _ _ _ hL1
          intro x hx
          apply Function.update_noteq
          intro h
          have hnd : ((L ++ [P]).map Prod.fst).Nodup := hpre_nodup
          rw [List.map_append, List.nodup_append] at hnd
          exact hnd.2.2 (List.mem_map.mpr ⟨x, hx, h⟩) (by simp)
        · apply Seg_congr _ _ _ _ _ _ hseg_rest1
          intro x hx
          apply Function.update_noteq
          intro h
          exact hpre_post P.1 hP_pre (hrest_fst _ (List.mem_map.mpr ⟨x, hx, h⟩))
      · simp only [List.length_append, List.length_cons]
        omega
    · rw [if_neg hPf]
      have hwhole : Seg (Function.update s.mem ta T') s.list_head
          ((L ++ [P]) ++ (ta, T') :: rest) 0 :=
        (Seg_append _ _ _ _ _).mpr ⟨ta, hseg_pre1, hseg_T1⟩
      have hno : ∀ x ∈ (L ++ [P]) ++ (ta, T') :: rest,
          ¬ (x.2.next = ta ∧ isFree x.2 ≠ 0) := by
        intro x hx hc
        rcases List.mem_append.mp hx with hx | hx
        · rcases List.mem_append.mp hx with hx | hx
          · exact hL_next x hx hc
          · simp only [List.mem_singleton] at hx
            subst hx
            exact hPf hc.2
        · rcases List.mem_cons.mp hx with hx | hx
          · subst hx
            rcases Seg_start_mem _ _ _ _ hseg_rest1 with h | h
            · exact hta0 (hc.1.symm.trans h)
            · exact hta_post (hrest_fst _ (hc.1 ▸ h))
          · rcases Seg_next_mem _ _ _ _ hseg_rest1 x hx with h | h
            · exact hta0 (hc.1.symm.trans h)
            · exact hta_post (hrest_fst _ (hc.1 ▸ h))
      have hn : ((L ++ [P]) ++ (ta, T') :: rest).length ≤ fuel := by
        simp only [List.length_append, List.length_cons, List.length_nil]
        omega
      have hfuel : fuel = ((L ++ [P]) ++ (ta, T') :: rest).length
          + (fuel - ((L ++ [P]) ++ (ta, T') :: rest).length) := by omega
      have hrun : prevLoop t ta fuel s.list_head (Function.update s.mem ta T')
          = some (Function.update s.mem ta T') := by
        rw [hfuel, prevLoop_skip t ta _ _ _ _ _ hwhole hno, prevLoop_null]
      rw [hrun]
      exact ⟨_, rfl, rfl, blocks_of_Seg _ _ _ _ hwhole hn⟩

/-- C13, the witness of the claim on the 32-bit target: blocks A, B, C of 16
bytes at 65536, 65560, 65584; after `Mem_Free` of B nothing merges, after
`Mem_Free` of A the blocks A and B are one free block of payload 40, and
`Mem_Free` of C (pointer 65648) leaves the single free block at 65536. -/
theorem Mem_Free_coalesces_witness :
    threeBusy.blocks 4 = some [(65536, ⟨65560, 17⟩), (65560, ⟨65584, 17⟩),
      (65584, ⟨65608, 17⟩), (65608, ⟨0, 3992⟩)] ∧
    (afterFree ilp32 4 threeBusy 65624).blocks 4 = some [(65536, ⟨65560, 17⟩),
      (65560, ⟨65584, 16⟩), (65584, ⟨65608, 17⟩), (65608, ⟨0, 3992⟩)] ∧
    freedBA.blocks 4 = some ([(65536, ⟨65584, 40⟩)] ++ (65584, ⟨65608, 17⟩) ::
      [(65608, ⟨0, 3992⟩)]) ∧
    isFree ⟨65608, 17⟩ = 0 ∧ (65584 : Int) + 8 * ilp32.hdr ≠ 0 ∧
    coalesced ilp32 [(65536, ⟨65584, 40⟩)] 65584 ⟨65608, 17⟩ [(65608, ⟨0, 3992⟩)]
      = [(65536, ⟨0, 4064⟩)] ∧
    ∃ s', Mem_Free ilp32 4 freedBA (65584 + 8 * ilp32.hdr) = some (s', 0) ∧
      s'.list_head = freedBA.list_head ∧
      s'.blocks 4 = some (coalesced ilp32 [(65536, ⟨65584, 40⟩)] 65584 ⟨65608, 17⟩
        [(65608, ⟨0, 3992⟩)]) :=
  ⟨by decide!, by decide!, by decide!, by decide, by decide, by decide,
    Mem_Free_coalesces ilp32 4 freedBA [(65536, ⟨65584, 40⟩)] [(65608, ⟨0, 3992⟩)]
      65584 ⟨65608, 17⟩ (by decide!) (by decide) (by decide)⟩

end MockHeap
